import Mathlib

/-!
The stream editor sedpp.

Shallow embedding of `src/main.cpp` (namespace `sed`) and proofs about it.

Modelling conventions.

* A `std::string_view` cursor is a `List Char`: every operation of the source
  only ever replaces a view by one of its suffixes (`substr`), so the list of
  the remaining characters is the whole state of a cursor.  A function of the
  source that takes the cursor by reference returns the new cursor next to its
  result.
* A `std::string_view` carries no terminator.  `parse_command` reads
  `input.front()` without testing the view for emptiness, so on an empty cursor
  it reads the byte stored after the view.  The functions of the parser
  therefore take that byte, `past`, next to the script text (`front_at`,
  `parse_command_at`, `parse_script_at`, `execute_at`).  The names without `_at`
  are their instances for a script that lies in a NUL-terminated buffer, as the
  string literals of the tests do.
* The loops of `parse_script` and `execute` have no bound in the source.  They
  are modelled with a bound on the number of iterations; `parse_script_at` and
  `execute_at` return `none` when the bound is reached, so a call of the source
  returns exactly when some bound gives a result.
* `std::size_t` is 64 bits wide: values are natural numbers below `SIZE_MOD`
  and the increment of `line_number` wraps modulo `SIZE_MOD`.
* `std::string` buffers (`output`, `pattern_space`, `hold_space`) are
  `List Char`.
* The trace that `run_cycle` prints on standard output with `fmt::print` is
  not part of the engine state and is not modelled.
-/

namespace sed

/-- Number of values of `std::size_t` (64-bit). -/
def SIZE_MOD : Nat := 2 ^ 64

/-- The function `std::isblank` in the "C" locale: space and horizontal tab. -/
def isblank (c : Char) : Bool := c == ' ' || c == '\t'

/-- The function `eat_blank`: drops the leading blanks, tells whether there was one. -/
def eat_blank : List Char → Bool × List Char
  | [] => (false, [])
  | c :: sv => if isblank c then (true, (eat_blank sv).2) else (false, c :: sv)

/-- The function `eat`: consumes one character if it is `c`. -/
def eat (sv : List Char) (c : Char) : Bool × List Char :=
  match sv with
  | [] => (false, [])
  | x :: rest => if x = c then (true, rest) else (false, x :: rest)

/-- The function `eat_n`: consumes `n` characters if that many remain. -/
def eat_n (sv : List Char) (n : Nat) : Bool × List Char :=
  if sv.length < n then (false, sv) else (true, sv.drop n)

/-- The function `get_until`: the text before the first `c` and the cursor after that `c`;
without a `c`, the whole text and the empty cursor.  The index loop of the source
walks the characters from the front, which is the recursion on the list. -/
def get_until : List Char → Char → List Char × List Char
  | [], _ => ([], [])
  | x :: input, c =>
    if x = c then ([], input)
    else ((x :: (get_until input c).1), (get_until input c).2)

/-- The function `get_line`. -/
def get_line (input : List Char) : List Char × List Char := get_until input '\n'

/-- The struct `Address`. -/
structure Address where
  line_number : Nat
  deriving DecidableEq

/-- The enum `Function`. -/
inductive Function where
  | none
  | d
  | equals
  | p
  deriving DecidableEq

/-- The struct `Command`. -/
structure Command where
  function : Function
  address : Option Address
  deriving DecidableEq

/-- Error codes of `std::from_chars` (`std::errc`). -/
inductive errc where
  | ok
  | invalid_argument
  | result_out_of_range
  deriving DecidableEq

/-- Value accumulated by `std::from_chars` over a run of decimal digits, most
significant digit first. -/
def digits_value (ds : List Char) : Nat :=
  ds.foldl (fun acc c => 10 * acc + (c.toNat - '0'.toNat)) 0

/-- The library function `std::from_chars(first, last, value)` for `std::size_t`
in base 10, as the C++ standard describes it: the pattern is the longest leading
run of decimal digits (no sign, no leading white space).  Returns the offset of
the returned pointer from `first`, the error code and the parsed value:
no digit gives `invalid_argument` with the pointer at `first`; a value that does
not fit `std::size_t` gives `result_out_of_range` with the pointer after the
run; in both cases the value is not written (rendered as `0`). -/
def from_chars (s : List Char) : Nat × errc × Nat :=
  let ds := s.takeWhile Char.isDigit
  if ds.isEmpty then (0, errc.invalid_argument, 0)
  else if digits_value ds < SIZE_MOD then (ds.length, errc.ok, digits_value ds)
  else (ds.length, errc.result_out_of_range, 0)

/-- The function `parse_address`. -/
def parse_address (script : List Char) : Option Address × List Char :=
  match from_chars script with
  | (p, errc.ok, result) => (some ⟨result⟩, script.drop p)
  | _ => (none, script)

/-- The first loop of `parse_command`: drops leading blanks and `;`. -/
def skip_separators : List Char → List Char
  | [] => []
  | c :: input => if isblank c || c == ';' then skip_separators input else c :: input

/-- The call `input.front()` on a view whose buffer holds the byte `past` right
after the last character of the view.  The source does not test the view for
emptiness before this call; on the empty view it reads that byte.  Every cursor
of a parse is a suffix of the script view, so `past` is the same for all of them.
(A view with a null data pointer, `std::string_view{}`, has no such byte: there
the read faults.  The model covers the views over a buffer.) -/
def front_at (past : Char) (sv : List Char) : Char := sv.headD past

/-- The function `parse_command` on a view followed in its buffer by the byte
`past`.  The result of `eat_n(input, 1)` is ignored, as in the source. -/
def parse_command_at (past : Char) (input : List Char) : Option Command × List Char :=
  let input1 := skip_separators input
  let address := (parse_address input1).1
  let input2 := (parse_address input1).2
  let input3 := (eat_blank input2).2
  let cmd_char := front_at past input3
  let input4 := (eat_n input3 1).2
  if cmd_char = 'd' then (some ⟨Function.d, address⟩, input4)
  else if cmd_char = '=' then (some ⟨Function.equals, address⟩, input4)
  else if cmd_char = 'p' then (some ⟨Function.p, address⟩, input4)
  else (none, input4)

/-- The commands that the loop of `parse_script` has appended to `result` after at
most `fuel` iterations, on a view followed in its buffer by the byte `past`. -/
def parse_script_loop_at (past : Char) : Nat → List Char → List Command
  | 0, _ => []
  | fuel + 1, script =>
    match parse_command_at past script with
    | (some cmd, rest) => cmd :: parse_script_loop_at past fuel rest
    | (none, _) => []

/-- The function `parse_script` on a view followed in its buffer by the byte
`past`, with a bound `fuel` on the number of calls of `parse_command`: the
sequence it returns, or `none` when no call has failed within the bound.  The loop
of the source has no bound: where the result is `none` for every `fuel`, the
source does not return. -/
def parse_script_at (past : Char) : Nat → List Char → Option (List Command)
  | 0, _ => none
  | fuel + 1, script =>
    match parse_command_at past script with
    | (some cmd, rest) => (parse_script_at past fuel rest).map (fun cmds => cmd :: cmds)
    | (none, _) => some []

/-- The function `parse_command` on a script that lies in a NUL-terminated buffer:
the byte after the view is the terminator. -/
def parse_command (input : List Char) : Option Command × List Char :=
  parse_command_at (Char.ofNat 0) input

/-- The loop of `parse_script` on a script that lies in a NUL-terminated buffer,
with a bound on the number of iterations. -/
def parse_script_loop (fuel : Nat) (script : List Char) : List Command :=
  parse_script_loop_at (Char.ofNat 0) fuel script

/-- The function `parse_script` on a script that lies in a NUL-terminated buffer.
There every successful `parse_command` consumes a character, so
`script.length + 1` iterations reach the failing call (`parse_script_loop_fuel`,
`parse_script_at_nul`). -/
def parse_script (script : List Char) : List Command :=
  parse_script_loop (script.length + 1) script

/-- The struct `StreamEditor`. -/
structure StreamEditor where
  commands : List Command
  output : List Char
  pattern_space : List Char
  hold_space : List Char
  line_number : Nat
  deriving DecidableEq

/-- The constructor `StreamEditor(cmds)`. -/
def StreamEditor.new (cmds : List Command) : StreamEditor :=
  ⟨cmds, [], [], [], 0⟩

/-- The method `write_line`. -/
def write_line (sed : StreamEditor) (line : List Char) : StreamEditor :=
  { sed with output := sed.output ++ line ++ ['\n'] }

/-- The method `address_selects`. -/
def address_selects (sed : StreamEditor) (cmd : Command) : Bool :=
  match cmd.address with
  | none => true
  | some a => a.line_number == sed.line_number

/-- The function `std::to_string` on `std::size_t`: the decimal digits. -/
def to_string (n : Nat) : List Char := Nat.toDigits 10 n

/-- The `for` loop of `run_cycle` over the commands still to run.  The flag tells
whether the loop left `run_cycle` through the `return` of the delete. -/
def run_commands : List Command → StreamEditor → StreamEditor × Bool
  | [], sed => (sed, false)
  | command :: rest, sed =>
    match command.function with
    | Function.none => run_commands rest sed
    | Function.d =>
      if !address_selects sed command then run_commands rest sed
      else ({ sed with pattern_space := [] }, true)
    | Function.equals =>
      if !address_selects sed command then run_commands rest sed
      else run_commands rest (write_line sed (to_string sed.line_number))
    | Function.p =>
      if !address_selects sed command then run_commands rest sed
      else run_commands rest (write_line sed sed.pattern_space)

/-- The method `run_cycle`. -/
def run_cycle (sed : StreamEditor) (input : List Char) : StreamEditor × List Char :=
  let sed1 := { sed with line_number := (sed.line_number + 1) % SIZE_MOD }
  let sed2 := { sed1 with pattern_space := (get_line input).1 }
  let input1 := (get_line input).2
  match run_commands sed2.commands sed2 with
  | (sed3, true) => (sed3, input1)
  | (sed3, false) => (write_line sed3 sed3.pattern_space, input1)

/-- The loop of `execute`, with a bound on the number of iterations. -/
def execute_loop : Nat → StreamEditor → List Char → StreamEditor × List Char
  | 0, sed, input => (sed, input)
  | fuel + 1, sed, input =>
    if input.isEmpty then (sed, input)
    else execute_loop fuel (run_cycle sed input).1 (run_cycle sed input).2

/-- The function `execute` on a script view followed in its buffer by the byte
`past`, with the bound `fuel` on the loop of `parse_script`: `none` when
`parse_script` has not returned within the bound.  Every cycle on a non-empty
cursor consumes a character, so `input.length` iterations of the loop of
`execute` empty the cursor (`execute_loop_cursor`). -/
def execute_at (past : Char) (fuel : Nat) (input script : List Char) :
    Option (List Char) :=
  (parse_script_at past fuel script).map
    (fun cmds => (execute_loop input.length (StreamEditor.new cmds) input).1.output)

/-- The function `execute` on a script that lies in a NUL-terminated buffer
(`execute_at_nul`). -/
def execute (input script : List Char) : List Char :=
  (execute_loop input.length (StreamEditor.new (parse_script script)) input).1.output

/-- The function character of the script syntax for each function the parser
recognises (`Function.none` is never written; it is given the NUL character,
which the parser rejects). -/
def function_char : Function → Char
  | Function.d => 'd'
  | Function.equals => '='
  | Function.p => 'p'
  | Function.none => Char.ofNat 0

/-- An optional address in the script syntax: its line number in decimal, or nothing. -/
def address_text : Option Address → List Char
  | none => []
  | some a => to_string a.line_number

/-- A command in the script syntax: the decimal address, if any, followed by the
function character. -/
def written (cmd : Command) : List Char :=
  address_text cmd.address ++ [function_char cmd.function]

/-- A command the parser can produce: a recognised function and an address, if
any, that fits `std::size_t`. -/
def Command.valid (cmd : Command) : Bool :=
  cmd.function != Function.none &&
    match cmd.address with
    | none => true
    | some a => decide (a.line_number < SIZE_MOD)

/-- The lines of a text, in the words of the specification: the pieces between
newlines, with no extra empty last line when the text ends with a newline; the
empty text has no line. -/
def lines (t : List Char) : List (List Char) :=
  if t = [] then []
  else if t.getLast? = some '\n' then (t.splitOn '\n').dropLast
  else t.splitOn '\n'

/-- Each line followed by one newline, all concatenated. -/
def unlines (ls : List (List Char)) : List Char :=
  (ls.map (fun l => l ++ ['\n'])).flatten

/-- The test of `address_selects` as a function of the address and the line number. -/
def selects (a : Option Address) (ln : Nat) : Bool :=
  match a with
  | none => true
  | some x => x.line_number == ln

/-- What the commands `cmds` append to `output` in a cycle with line number `ln`
and pattern space `ps`, and whether a delete ended the cycle
(`run_commands_eq` relates it to `run_commands`). -/
def cmds_output : List Command → Nat → List Char → List Char × Bool
  | [], _, _ => ([], false)
  | command :: rest, ln, ps =>
    match command.function with
    | Function.none => cmds_output rest ln ps
    | Function.d =>
      if selects command.address ln then ([], true) else cmds_output rest ln ps
    | Function.equals =>
      if selects command.address ln then
        (to_string ln ++ ['\n'] ++ (cmds_output rest ln ps).1, (cmds_output rest ln ps).2)
      else cmds_output rest ln ps
    | Function.p =>
      if selects command.address ln then
        (ps ++ ['\n'] ++ (cmds_output rest ln ps).1, (cmds_output rest ln ps).2)
      else cmds_output rest ln ps

/-- What one cycle appends to `output`: the output of the commands and, unless a
delete ended the cycle, the pattern space (`run_cycle_output`). -/
def cycle_output (cmds : List Command) (ln : Nat) (ps : List Char) : List Char :=
  if (cmds_output cmds ln ps).2 then (cmds_output cmds ln ps).1
  else (cmds_output cmds ln ps).1 ++ ps ++ ['\n']

/-- What the cycles over the lines `ls` append to `output` when `n` lines were
consumed before (`execute_loop_output`). -/
def emit (cmds : List Command) : Nat → List (List Char) → List Char
  | _, [] => []
  | n, l :: ls => cycle_output cmds ((n + 1) % SIZE_MOD) l ++ emit cmds ((n + 1) % SIZE_MOD) ls

/-- The value of a string of decimal digits, most significant digit first, by
the positional formula of `Nat.ofDigits` (which takes the least significant digit
first). -/
def decimal_value (ds : List Char) : Nat :=
  Nat.ofDigits 10 (ds.reverse.map (fun c => c.toNat - '0'.toNat))

/-- The text begins with a decimal digit. -/
def begins_with_digit (text : List Char) : Bool :=
  match text with
  | [] => false
  | c :: _ => c.isDigit

/-- The number of calls of `run_cycle` that the loop of `execute` makes. -/
def execute_cycles : Nat → StreamEditor → List Char → Nat
  | 0, _, _ => 0
  | fuel + 1, sed, input =>
    if input.isEmpty then 0
    else 1 + execute_cycles fuel (run_cycle sed input).1 (run_cycle sed input).2

/-- A character that is neither a decimal digit, nor a blank, nor `;`, nor one of
the function characters `d`, `=`, `p`. -/
def unrecognised (c : Char) : Bool :=
  !(c.isDigit || isblank c || c == ';' || c == 'd' || c == '=' || c == 'p')

/-! ### Decimal representation -/

theorem toDigitsCore_fuel (f1 f2 n : Nat) (ds : List Char) (h1 : n < f1) (h2 : n < f2) :
    Nat.toDigitsCore 10 f1 n ds = Nat.toDigitsCore 10 f2 n ds := by
  induction f1 generalizing f2 n ds with
  | zero => omega
  | succ f1 ih =>
    cases f2 with
    | zero => omega
    | succ f2 =>
      simp only [Nat.toDigitsCore]
      split
      · rfl
      · apply ih <;> omega

theorem toDigitsCore_acc (f n : Nat) (ds : List Char) :
    Nat.toDigitsCore 10 f n ds = Nat.toDigitsCore 10 f n [] ++ ds := by
  induction f generalizing n ds with
  | zero => simp [Nat.toDigitsCore]
  | succ f ih =>
    simp only [Nat.toDigitsCore]
    split
    · simp
    · rw [ih, ih (n / 10) [_]]; simp

theorem toDigitsCore_succ (f n : Nat) (ds : List Char) :
    Nat.toDigitsCore 10 (f + 1) n ds =
      if n / 10 = 0 then Nat.digitChar (n % 10) :: ds
      else Nat.toDigitsCore 10 f (n / 10) (Nat.digitChar (n % 10) :: ds) := by
  simp [Nat.toDigitsCore]

theorem to_string_lt (n : Nat) (h : n < 10) : to_string n = [Nat.digitChar n] := by
  simp [to_string, Nat.toDigits, Nat.toDigitsCore, Nat.mod_eq_of_lt h, Nat.div_eq_of_lt h]

theorem to_string_ge (n : Nat) (h : 10 ≤ n) :
    to_string n = to_string (n / 10) ++ [Nat.digitChar (n % 10)] := by
  have hne : n / 10 ≠ 0 := by omega
  show Nat.toDigitsCore 10 (n + 1) n [] = Nat.toDigitsCore 10 (n / 10 + 1) (n / 10) [] ++ _
  rw [toDigitsCore_succ, if_neg hne, toDigitsCore_acc,
    toDigitsCore_fuel n (n / 10 + 1) (n / 10) [] (by omega) (by omega)]

theorem digitChar_isDigit (k : Nat) (h : k < 10) : (Nat.digitChar k).isDigit = true := by
  interval_cases k <;> decide

theorem digitChar_toNat (k : Nat) (h : k < 10) : (Nat.digitChar k).toNat - '0'.toNat = k := by
  interval_cases k <;> decide

theorem to_string_ne_nil (n : Nat) : to_string n ≠ [] := by
  by_cases h : n < 10
  · simp [to_string_lt n h]
  · simp [to_string_ge n (by omega)]

theorem to_string_isDigit (n : Nat) : ∀ c ∈ to_string n, c.isDigit = true := by
  induction n using Nat.strong_induction_on with
  | _ n ih =>
    by_cases h : n < 10
    · intro c hc
      simp only [to_string_lt n h, List.mem_singleton] at hc
      subst hc
      exact digitChar_isDigit n h
    · intro c hc
      rw [to_string_ge n (by omega), List.mem_append, List.mem_singleton] at hc
      rcases hc with hc | hc
      · exact ih (n / 10) (by omega) c hc
      · subst hc
        exact digitChar_isDigit _ (Nat.mod_lt _ (by decide))

theorem digits_value_snoc (ds : List Char) (c : Char) :
    digits_value (ds ++ [c]) = 10 * digits_value ds + (c.toNat - '0'.toNat) := by
  simp [digits_value, List.foldl_append]

theorem digits_value_to_string (n : Nat) : digits_value (to_string n) = n := by
  induction n using Nat.strong_induction_on with
  | _ n ih =>
    by_cases h : n < 10
    · rw [to_string_lt n h]
      simpa [digits_value] using digitChar_toNat n h
    · rw [to_string_ge n (by omega), digits_value_snoc, ih (n / 10) (by omega),
        digitChar_toNat _ (Nat.mod_lt _ (by decide))]
      omega

theorem isblank_iff (c : Char) : isblank c = true ↔ c = ' ' ∨ c = '\t' := by
  simp [isblank]

theorem from_chars_to_string (n : Nat) (rest : List Char) (hn : n < SIZE_MOD)
    (hrest : rest.takeWhile Char.isDigit = []) :
    from_chars (to_string n ++ rest) = ((to_string n).length, errc.ok, n) := by
  have htw : (to_string n ++ rest).takeWhile Char.isDigit = to_string n := by
    rw [List.takeWhile_append_of_pos (to_string_isDigit n), hrest, List.append_nil]
  have hne : (to_string n).isEmpty = false := by
    cases h : to_string n with
    | nil => exact absurd h (to_string_ne_nil n)
    | cons _ _ => rfl
  simp only [from_chars, htw, hne, digits_value_to_string, hn, if_true]
  simp

theorem parse_address_to_string (n : Nat) (rest : List Char) (hn : n < SIZE_MOD)
    (hrest : rest.takeWhile Char.isDigit = []) :
    parse_address (to_string n ++ rest) = (some ⟨n⟩, rest) := by
  simp [parse_address, from_chars_to_string n rest hn hrest]

theorem parse_address_no_digit (s : List Char) (h : s.takeWhile Char.isDigit = []) :
    parse_address s = (none, s) := by
  simp [parse_address, from_chars, h]

theorem takeWhile_isDigit_cons (c : Char) (s : List Char) (h : c.isDigit = false) :
    (c :: s).takeWhile Char.isDigit = [] := by
  simp [List.takeWhile, h]

theorem eat_blank_append (b s : List Char) (hb : ∀ c ∈ b, isblank c = true) :
    (eat_blank (b ++ s)).2 = (eat_blank s).2 := by
  induction b with
  | nil => rfl
  | cons c b ih =>
    have hc : isblank c = true := hb c (List.mem_cons_self _ _)
    simp only [List.cons_append, eat_blank, hc, if_true]
    exact ih (fun x hx => hb x (List.mem_cons_of_mem _ hx))

theorem eat_blank_cons_of_not (c : Char) (s : List Char) (h : isblank c = false) :
    eat_blank (c :: s) = (false, c :: s) := by
  simp [eat_blank, h]

theorem skip_separators_append (w s : List Char)
    (hw : ∀ c ∈ w, c = ' ' ∨ c = '\t' ∨ c = ';') :
    skip_separators (w ++ s) = skip_separators s := by
  induction w with
  | nil => rfl
  | cons c w ih =>
    have hc : (isblank c || c == ';') = true := by
      rcases hw c (List.mem_cons_self _ _) with h | h | h <;> subst h <;> decide
    simp only [List.cons_append, skip_separators, hc, if_true]
    exact ih (fun x hx => hw x (List.mem_cons_of_mem _ hx))

theorem skip_separators_cons_of_not (c : Char) (s : List Char)
    (h : (isblank c || c == ';') = false) : skip_separators (c :: s) = c :: s := by
  simp [skip_separators, h]

theorem function_char_facts (f : Function) (hf : f ≠ Function.none) :
    (function_char f).isDigit = false ∧ isblank (function_char f) = false ∧
    ((function_char f) == ';') = false := by
  cases f <;> first | exact absurd rfl hf | decide

theorem to_string_head (n : Nat) : ∃ c s, to_string n = c :: s ∧ c.isDigit = true := by
  cases h : to_string n with
  | nil => exact absurd h (to_string_ne_nil n)
  | cons c s => exact ⟨c, s, rfl, to_string_isDigit n c (by simp [h])⟩

theorem isDigit_not_sep (c : Char) (h : c.isDigit = true) :
    (isblank c || c == ';') = false := by
  have h1 : c ≠ ' ' := by rintro rfl; exact absurd h (by decide)
  have h2 : c ≠ '\t' := by rintro rfl; exact absurd h (by decide)
  have h3 : c ≠ ';' := by rintro rfl; exact absurd h (by decide)
  simp [isblank, h1, h2, h3]

theorem parse_command_core (w t b rest : List Char) (f : Function) (a : Option Address)
    (hw : ∀ c ∈ w, c = ' ' ∨ c = '\t' ∨ c = ';') (hb : ∀ c ∈ b, isblank c = true)
    (hf : f ≠ Function.none) (ht : parse_address t = (a, b ++ function_char f :: rest))
    (hs : skip_separators t = t) :
    parse_command (w ++ t) = (some ⟨f, a⟩, rest) := by
  obtain ⟨_, hfb, _⟩ := function_char_facts f hf
  have h3 : (eat_blank (b ++ function_char f :: rest)).2 = function_char f :: rest := by
    rw [eat_blank_append b _ hb, eat_blank_cons_of_not _ _ hfb]
  simp only [parse_command, parse_command_at, skip_separators_append w t hw, hs, ht, h3,
    front_at, eat_n, List.headD_cons]
  cases f <;> first | exact absurd rfl hf | simp [function_char]

/-- A written command is parsed back, whatever separators precede it, whatever
blanks stand between its address and its function character and whatever follows. -/
theorem parse_command_written (w b rest : List Char) (f : Function) (a : Option Address)
    (hw : ∀ c ∈ w, c = ' ' ∨ c = '\t' ∨ c = ';') (hb : ∀ c ∈ b, isblank c = true)
    (hf : f ≠ Function.none) (ha : ∀ x, a = some x → x.line_number < SIZE_MOD) :
    parse_command (w ++ address_text a ++ b ++ function_char f :: rest) =
      (some ⟨f, a⟩, rest) := by
  obtain ⟨hfd, hfb, hfs⟩ := function_char_facts f hf
  cases a with
  | none =>
    have hwb : ∀ c ∈ w ++ b, c = ' ' ∨ c = '\t' ∨ c = ';' := by
      intro c hc
      rcases List.mem_append.mp hc with h | h
      · exact hw c h
      · rcases (isblank_iff c).mp (hb c h) with h | h
        · exact Or.inl h
        · exact Or.inr (Or.inl h)
    simp only [address_text, List.append_nil]
    exact parse_command_core (w ++ b) _ [] rest f none hwb (by simp) hf
      (parse_address_no_digit _ (takeWhile_isDigit_cons _ _ hfd))
      (skip_separators_cons_of_not _ _ (by simp [hfb, hfs]))
  | some x =>
    have hbd : (b ++ function_char f :: rest).takeWhile Char.isDigit = [] := by
      cases b with
      | nil => exact takeWhile_isDigit_cons _ _ hfd
      | cons c b =>
        apply takeWhile_isDigit_cons
        have hc := hb c (List.mem_cons_self _ _)
        cases hd : c.isDigit with
        | false => rfl
        | true => have := isDigit_not_sep c hd; simp [hc] at this
    simp only [address_text, List.append_assoc]
    apply parse_command_core w _ b rest f _ hw hb hf
      (parse_address_to_string _ _ (ha x rfl) hbd)
    obtain ⟨c, s, hcs, hc⟩ := to_string_head x.line_number
    rw [hcs]
    exact skip_separators_cons_of_not _ _ (isDigit_not_sep c hc)

theorem skip_separators_length (s : List Char) : (skip_separators s).length ≤ s.length := by
  induction s with
  | nil => simp [skip_separators]
  | cons c s ih =>
    simp only [skip_separators]
    split
    · simp only [List.length_cons]; omega
    · exact Nat.le_refl _

theorem eat_blank_length (s : List Char) : (eat_blank s).2.length ≤ s.length := by
  induction s with
  | nil => simp [eat_blank]
  | cons c s ih =>
    simp only [eat_blank]
    split
    · simp only [List.length_cons]; omega
    · exact Nat.le_refl _

theorem parse_address_length (s : List Char) : (parse_address s).2.length ≤ s.length := by
  unfold parse_address
  split
  · simp only [List.length_drop]; omega
  · exact Nat.le_refl _

/-- A successful `parse_command` consumes at least one character. -/
theorem parse_command_length (s r : List Char) (cmd : Command)
    (h : parse_command s = (some cmd, r)) : r.length < s.length := by
  have h1 := skip_separators_length s
  have h2 := parse_address_length (skip_separators s)
  have h3 := eat_blank_length (parse_address (skip_separators s)).2
  generalize hi : (eat_blank (parse_address (skip_separators s)).2).2 = input3 at h3
  have hr : parse_command s =
      (if front_at (Char.ofNat 0) input3 = 'd' then
          (some ⟨Function.d, (parse_address (skip_separators s)).1⟩, (eat_n input3 1).2)
        else if front_at (Char.ofNat 0) input3 = '=' then
          (some ⟨Function.equals, (parse_address (skip_separators s)).1⟩, (eat_n input3 1).2)
        else if front_at (Char.ofNat 0) input3 = 'p' then
          (some ⟨Function.p, (parse_address (skip_separators s)).1⟩, (eat_n input3 1).2)
        else (none, (eat_n input3 1).2)) := by
    simp only [parse_command, parse_command_at, hi]
  rw [hr] at h
  cases input3 with
  | nil => simp [front_at] at h
  | cons c t =>
    have hl : r = t := by
      have : (eat_n (c :: t) 1).2 = t := by simp [eat_n]
      rw [this] at h
      split_ifs at h <;> simp at h <;> exact h.2.symm
    subst hl
    simp only [List.length_cons] at h3
    omega

theorem parse_script_loop_succ (fuel : Nat) (script : List Char) :
    parse_script_loop (fuel + 1) script =
      match parse_command script with
      | (some cmd, rest) => cmd :: parse_script_loop fuel rest
      | (none, _) => [] := rfl

theorem parse_script_loop_fuel (f1 f2 : Nat) (s : List Char)
    (h1 : s.length < f1) (h2 : s.length < f2) :
    parse_script_loop f1 s = parse_script_loop f2 s := by
  induction f1 generalizing f2 s with
  | zero => omega
  | succ f1 ih =>
    cases f2 with
    | zero => omega
    | succ f2 =>
      simp only [parse_script_loop_succ]
      cases hp : parse_command s with
      | mk oc r =>
        cases oc with
        | none => rfl
        | some cmd =>
          have := parse_command_length s r cmd hp
          simp only
          rw [ih f2 r (by omega) (by omega)]

theorem parse_script_some (s r : List Char) (cmd : Command)
    (h : parse_command s = (some cmd, r)) : parse_script s = cmd :: parse_script r := by
  have hl := parse_command_length s r cmd h
  have hs : parse_script_loop (s.length + 1) s = cmd :: parse_script_loop s.length r := by
    simp only [parse_script_loop_succ, h]
  rw [parse_script, hs, parse_script,
    parse_script_loop_fuel s.length (r.length + 1) r hl (by omega)]

theorem parse_script_none (s r : List Char) (h : parse_command s = (none, r)) :
    parse_script s = [] := by
  simp only [parse_script, parse_script_loop_succ, h]

theorem parse_command_nil : parse_command [] = (none, []) := by decide

theorem parse_command_skip (w s : List Char) (hw : ∀ c ∈ w, c = ' ' ∨ c = '\t' ∨ c = ';') :
    parse_command (w ++ s) = parse_command s := by
  simp only [parse_command, parse_command_at, skip_separators_append w s hw]

theorem parse_script_skip (w s : List Char) (hw : ∀ c ∈ w, c = ' ' ∨ c = '\t' ∨ c = ';') :
    parse_script (w ++ s) = parse_script s := by
  cases hp : parse_command s with
  | mk oc r =>
    have hp2 : parse_command (w ++ s) = (oc, r) := by rw [parse_command_skip w s hw, hp]
    cases oc with
    | none => rw [parse_script_none _ _ hp, parse_script_none _ _ hp2]
    | some cmd => rw [parse_script_some _ _ _ hp, parse_script_some _ _ _ hp2]

theorem written_eq (cmd : Command) :
    written cmd = [] ++ address_text cmd.address ++ [] ++ function_char cmd.function :: [] := by
  simp [written]

theorem valid_iff (cmd : Command) :
    cmd.valid = true ↔
      cmd.function ≠ Function.none ∧
        ∀ a, cmd.address = some a → a.line_number < SIZE_MOD := by
  cases cmd with
  | mk f a => cases a <;> simp [Command.valid]

/-- Commands written one after the other, each preceded by the separator text
`sep` except the first, are parsed back. -/
theorem parse_script_intercalate (sep : List Char) (cmds : List Command)
    (hsep : ∀ c ∈ sep, c = ' ' ∨ c = '\t' ∨ c = ';')
    (hv : ∀ cmd ∈ cmds, cmd.valid = true) :
    parse_script (List.intercalate sep (cmds.map written)) = cmds := by
  induction cmds with
  | nil => simp [List.intercalate, parse_script_none _ _ parse_command_nil]
  | cons cmd cmds ih =>
    have hcv := (valid_iff cmd).mp (hv cmd (List.mem_cons_self _ _))
    have ih2 := ih (fun c hc => hv c (List.mem_cons_of_mem _ hc))
    cases cmds with
    | nil =>
      have hp := parse_command_written [] [] [] cmd.function cmd.address (by simp) (by simp)
        hcv.1 hcv.2
      rw [← written_eq] at hp
      have he : List.intercalate sep ([cmd].map written) = written cmd := by
        simp [List.intercalate, List.intersperse]
      rw [he, parse_script_some _ _ _ hp, parse_script_none _ _ parse_command_nil]
    | cons c2 cmds =>
      have hp := parse_command_written [] [] (sep ++ List.intercalate sep ((c2 :: cmds).map written))
        cmd.function cmd.address (by simp) (by simp) hcv.1 hcv.2
      have he : List.intercalate sep ((cmd :: c2 :: cmds).map written) =
          [] ++ address_text cmd.address ++ [] ++ function_char cmd.function ::
              (sep ++ List.intercalate sep ((c2 :: cmds).map written)) := by
        simp [List.intercalate, List.intersperse, written]
      rw [he, parse_script_some _ _ _ hp, parse_script_skip _ _ hsep, ih2]

/-! ### Lines of a text -/

theorem get_until_length (s : List Char) (c : Char) :
    (get_until s c).2.length ≤ s.length - 1 := by
  induction s with
  | nil => simp [get_until]
  | cons x s ih =>
    simp only [get_until]
    split
    · simp
    · simp only [List.length_cons, Nat.add_sub_cancel]; omega

theorem splitOn_cons_newline (xs : List Char) :
    ('\n' :: xs).splitOn '\n' = [] :: xs.splitOn '\n' := by
  simp [List.splitOn, List.splitOnP_cons]

theorem splitOn_cons_other (x : Char) (xs : List Char) (hx : x ≠ '\n') :
    (x :: xs).splitOn '\n' = (xs.splitOn '\n').modifyHead (List.cons x) := by
  simp [List.splitOn, List.splitOnP_cons, hx]

theorem splitOn_ne_nil (xs : List Char) : xs.splitOn '\n' ≠ [] :=
  List.splitOnP_ne_nil _ _

theorem dropLast_modifyHead {α : Type} (f : α → α) (l : List α) :
    (l.modifyHead f).dropLast = l.dropLast.modifyHead f := by
  match l with
  | [] => rfl
  | [a] => rfl
  | a :: b :: r => simp

theorem lines_nil : lines [] = [] := by simp [lines]

theorem lines_cons_newline (xs : List Char) : lines ('\n' :: xs) = [] :: lines xs := by
  cases xs with
  | nil => decide
  | cons y ys =>
    have hne := splitOn_ne_nil (y :: ys)
    simp only [lines, List.getLast?_cons_cons, splitOn_cons_newline, reduceCtorEq, if_false]
    split
    · rw [List.dropLast_cons_of_ne_nil hne]
    · rfl

theorem lines_ne_nil (xs : List Char) (h : xs ≠ []) : lines xs ≠ [] := by
  induction xs with
  | nil => exact absurd rfl h
  | cons x xs ih =>
    by_cases hx : x = '\n'
    · subst hx; rw [lines_cons_newline]; simp
    · cases xs with
      | nil =>
        have : [x].getLast? ≠ some '\n' := by simpa using hx
        simp only [lines, this, reduceCtorEq, if_false]
        exact splitOn_ne_nil _
      | cons y ys =>
        have ih2 := ih (by simp)
        simp only [lines, List.getLast?_cons_cons, reduceCtorEq, if_false] at ih2 ⊢
        rw [splitOn_cons_other x _ hx]
        split
        · rename_i hl
          rw [if_pos hl] at ih2
          rw [dropLast_modifyHead]
          simpa using ih2
        · simpa using splitOn_ne_nil (y :: ys)

theorem lines_cons_other (x : Char) (xs : List Char) (hx : x ≠ '\n') :
    lines (x :: xs) =
      match lines xs with
      | [] => [[x]]
      | l :: ls => (x :: l) :: ls := by
  cases xs with
  | nil =>
    have : [x].getLast? ≠ some '\n' := by simpa using hx
    simp only [lines_nil]
    simp only [lines, this, reduceCtorEq, if_false]
    simp [List.splitOn, List.splitOnP_cons, hx, List.splitOnP_nil]
  | cons y ys =>
    have hne := lines_ne_nil (y :: ys) (by simp)
    have hm : lines (x :: y :: ys) = (lines (y :: ys)).modifyHead (List.cons x) := by
      simp only [lines, List.getLast?_cons_cons, reduceCtorEq, if_false]
      rw [splitOn_cons_other x _ hx]
      split
      · rw [dropLast_modifyHead]
      · rfl
    rw [hm]
    cases hl : lines (y :: ys) with
    | nil => exact absurd hl hne
    | cons l ls => rfl

/-- The first cycle of a non-empty text takes its first line and leaves a cursor
that holds the other lines. -/
theorem lines_get_line (input : List Char) (h : input ≠ []) :
    lines input = (get_line input).1 :: lines (get_line input).2 := by
  induction input with
  | nil => exact absurd rfl h
  | cons x xs ih =>
    by_cases hx : x = '\n'
    · subst hx
      rw [lines_cons_newline]
      simp [get_line, get_until]
    · rw [lines_cons_other x xs hx]
      cases xs with
      | nil => simp [get_line, get_until, hx, lines_nil]
      | cons y ys =>
        rw [ih (by simp)]
        simp [get_line, get_until, hx]

theorem lines_length_le (input : List Char) : (lines input).length ≤ input.length := by
  induction input with
  | nil => simp [lines_nil]
  | cons x xs ih =>
    by_cases hx : x = '\n'
    · subst hx; rw [lines_cons_newline]; simpa using ih
    · rw [lines_cons_other x xs hx]
      cases hl : lines xs with
      | nil => simp
      | cons l ls => rw [hl] at ih; simp only [List.length_cons] at ih ⊢; omega

/-! ### One cycle and the whole run -/

theorem address_selects_eq (sed : StreamEditor) (cmd : Command) :
    address_selects sed cmd = selects cmd.address sed.line_number := by
  cases cmd with
  | mk f a => cases a <;> rfl

theorem run_commands_eq (cmds : List Command) (sed : StreamEditor) :
    run_commands cmds sed =
      (⟨sed.commands, sed.output ++ (cmds_output cmds sed.line_number sed.pattern_space).1,
        if (cmds_output cmds sed.line_number sed.pattern_space).2 then [] else sed.pattern_space,
        sed.hold_space, sed.line_number⟩,
       (cmds_output cmds sed.line_number sed.pattern_space).2) := by
  induction cmds generalizing sed with
  | nil => simp [run_commands, cmds_output]
  | cons command rest ih =>
    cases hf : command.function with
    | none => simp only [run_commands, cmds_output, hf, ih]
    | d =>
      simp only [run_commands, cmds_output, hf, address_selects_eq]
      cases selects command.address sed.line_number <;> simp [ih]
    | equals =>
      simp only [run_commands, cmds_output, hf, address_selects_eq]
      cases selects command.address sed.line_number <;> simp [ih, write_line]
    | p =>
      simp only [run_commands, cmds_output, hf, address_selects_eq]
      cases selects command.address sed.line_number <;> simp [ih, write_line]

theorem run_cycle_output (sed : StreamEditor) (input : List Char) :
    (run_cycle sed input).1.output =
      sed.output ++ cycle_output sed.commands ((sed.line_number + 1) % SIZE_MOD)
        (get_line input).1 := by
  simp only [run_cycle, run_commands_eq, cycle_output]
  cases (cmds_output sed.commands ((sed.line_number + 1) % SIZE_MOD) (get_line input).1).2 <;>
    simp [write_line]

theorem run_cycle_commands (sed : StreamEditor) (input : List Char) :
    (run_cycle sed input).1.commands = sed.commands := by
  simp only [run_cycle, run_commands_eq]
  cases (cmds_output sed.commands ((sed.line_number + 1) % SIZE_MOD) (get_line input).1).2 <;>
    simp [write_line]

theorem run_cycle_line_number (sed : StreamEditor) (input : List Char) :
    (run_cycle sed input).1.line_number = (sed.line_number + 1) % SIZE_MOD := by
  simp only [run_cycle, run_commands_eq]
  cases (cmds_output sed.commands ((sed.line_number + 1) % SIZE_MOD) (get_line input).1).2 <;>
    simp [write_line]

theorem run_cycle_cursor (sed : StreamEditor) (input : List Char) :
    (run_cycle sed input).2 = (get_line input).2 := by
  simp only [run_cycle, run_commands_eq]
  cases (cmds_output sed.commands ((sed.line_number + 1) % SIZE_MOD) (get_line input).1).2 <;>
    simp

/-- With at least `input.length` iterations allowed, the loop of `execute` ends on
the empty cursor: the bound is never what stops it. -/
theorem execute_loop_cursor (fuel : Nat) (sed : StreamEditor) (input : List Char)
    (h : input.length ≤ fuel) : (execute_loop fuel sed input).2 = [] := by
  induction fuel generalizing sed input with
  | zero =>
    have : input = [] := List.length_eq_zero.mp (by omega)
    simp [execute_loop, this]
  | succ fuel ih =>
    cases input with
    | nil => simp [execute_loop]
    | cons x xs =>
      simp only [execute_loop, List.isEmpty_cons, Bool.false_eq_true, if_false]
      apply ih
      rw [run_cycle_cursor]
      have := get_until_length (x :: xs) '\n'
      simp only [List.length_cons, get_line] at h this ⊢
      omega

/-- The output of a run: what it held before, then what each cycle appends for its
line. -/
theorem execute_loop_output (fuel : Nat) (sed : StreamEditor) (input : List Char)
    (h : input.length ≤ fuel) :
    (execute_loop fuel sed input).1.output =
      sed.output ++ emit sed.commands sed.line_number (lines input) := by
  induction fuel generalizing sed input with
  | zero =>
    have : input = [] := List.length_eq_zero.mp (by omega)
    simp [execute_loop, this, lines_nil, emit]
  | succ fuel ih =>
    cases input with
    | nil => simp [execute_loop, lines_nil, emit]
    | cons x xs =>
      simp only [execute_loop, List.isEmpty_cons, Bool.false_eq_true, if_false]
      have hl : (run_cycle sed (x :: xs)).2.length ≤ fuel := by
        rw [run_cycle_cursor]
        have := get_until_length (x :: xs) '\n'
        simp only [List.length_cons, get_line] at h this ⊢
        omega
      rw [ih _ _ hl, run_cycle_output, run_cycle_commands, run_cycle_line_number,
        run_cycle_cursor, lines_get_line (x :: xs) (by simp), emit, List.append_assoc]

theorem execute_eq (input script : List Char) :
    execute input script = emit (parse_script script) 0 (lines input) := by
  simp [execute, execute_loop_output _ _ _ (Nat.le_refl _), StreamEditor.new]

/-- Without wrap-around of the line counter, `emit` numbers the lines from `n + 1`. -/
theorem emit_cons (cmds : List Command) (n : Nat) (l : List Char) (ls : List (List Char))
    (h : n + 1 < SIZE_MOD) :
    emit cmds n (l :: ls) = cycle_output cmds (n + 1) l ++ emit cmds (n + 1) ls := by
  simp [emit, Nat.mod_eq_of_lt h]

/-! ### Shapes of `emit` -/

theorem unlines_nil : unlines [] = [] := rfl

theorem unlines_cons (l : List Char) (ls : List (List Char)) :
    unlines (l :: ls) = l ++ ['\n'] ++ unlines ls := by
  simp [unlines]

theorem unlines_append (xs ys : List (List Char)) :
    unlines (xs ++ ys) = unlines xs ++ unlines ys := by
  simp [unlines]

/-- A run in which every cycle just prints its line. -/
theorem emit_plain (cmds : List Command) (ls : List (List Char)) (m : Nat)
    (hm : m + ls.length < SIZE_MOD)
    (hc : ∀ i l, m < i → i ≤ m + ls.length → cycle_output cmds i l = l ++ ['\n']) :
    emit cmds m ls = unlines ls := by
  induction ls generalizing m with
  | nil => rfl
  | cons l ls ih =>
    simp only [List.length_cons] at hm hc
    rw [emit_cons cmds m l ls (by omega), unlines_cons, hc (m + 1) l (by omega) (by omega),
      ih (m + 1) (by omega) (fun i l hi hi2 => hc i l (by omega) (by omega))]

/-- A run in which every cycle but the one of line `n` just prints its line. -/
theorem emit_at (cmds : List Command) (n : Nat) (ls : List (List Char)) (m : Nat)
    (hm : m + ls.length < SIZE_MOD) (h1 : m < n) (h2 : n ≤ m + ls.length)
    (hc : ∀ i l, i ≠ n → cycle_output cmds i l = l ++ ['\n']) :
    emit cmds m ls =
      unlines (ls.take (n - m - 1)) ++ cycle_output cmds n (ls.getD (n - m - 1) []) ++
        unlines (ls.drop (n - m)) := by
  induction ls generalizing m with
  | nil => simp only [List.length_nil] at h2; omega
  | cons l ls ih =>
    simp only [List.length_cons] at hm h2
    rw [emit_cons cmds m l ls (by omega)]
    by_cases hn : m + 1 = n
    · subst hn
      have e1 : m + 1 - m - 1 = 0 := by omega
      have e2 : m + 1 - m = 1 := by omega
      rw [e1, e2, emit_plain cmds ls (m + 1) (by omega) (fun i l hi _ => hc i l (by omega))]
      simp [unlines_nil]
    · have e1 : n - m - 1 = (n - (m + 1) - 1) + 1 := by omega
      have e2 : n - m = (n - (m + 1)) + 1 := by omega
      rw [hc (m + 1) l hn, ih (m + 1) (by omega) (by omega) (by omega), e1, e2]
      simp [unlines_cons, List.append_assoc]

theorem cycle_output_nil (ln : Nat) (ps : List Char) : cycle_output [] ln ps = ps ++ ['\n'] := by
  simp [cycle_output, cmds_output]

theorem emit_nil (n : Nat) (ls : List (List Char)) : emit [] n ls = unlines ls := by
  induction ls generalizing n with
  | nil => rfl
  | cons l ls ih => simp [emit, ih, cycle_output_nil, unlines_cons]

theorem parse_script_nil : parse_script [] = [] := parse_script_none _ _ parse_command_nil

/-- The lines of a text, each with its newline, give the text back, with a newline
added at the end when it lacks one. -/
theorem unlines_lines (input : List Char) :
    unlines (lines input) =
      if input = [] then []
      else if input.getLast? = some '\n' then input else input ++ ['\n'] := by
  induction input with
  | nil => simp [lines_nil, unlines_nil]
  | cons x xs ih =>
    by_cases hx : x = '\n'
    · subst hx
      rw [lines_cons_newline, unlines_cons, ih]
      cases xs with
      | nil => simp
      | cons y ys =>
        simp only [reduceCtorEq, if_false, List.getLast?_cons_cons]
        split <;> simp
    · rw [lines_cons_other x xs hx]
      cases xs with
      | nil => simp [lines_nil, unlines, hx]
      | cons y ys =>
        have hne := lines_ne_nil (y :: ys) (by simp)
        cases hl : lines (y :: ys) with
        | nil => exact absurd hl hne
        | cons l ls =>
          rw [hl] at ih
          simp only [reduceCtorEq, if_false, List.getLast?_cons_cons] at ih ⊢
          rw [unlines_cons] at ih ⊢
          rw [List.cons_append, List.cons_append, ih]
          split <;> simp

/-- On a script in a NUL-terminated buffer: with the empty script, `execute` returns a non-empty input unchanged when
it ends with a newline, and followed by exactly one newline otherwise. -/
theorem execute_empty_script (input : List Char) (h : input ≠ []) :
    execute input [] = if input.getLast? = some '\n' then input else input ++ ['\n'] := by
  rw [execute_eq, parse_script_nil, emit_nil, unlines_lines, if_neg h]

theorem parse_command_d (rest : List Char) :
    parse_command ('d' :: rest) = (some ⟨Function.d, none⟩, rest) := by
  have h := parse_command_written [] [] rest Function.d none (by simp) (by simp) (by decide)
    (by simp)
  simpa [address_text, function_char] using h

theorem cycle_output_delete (cmds : List Command) (ln : Nat) (ps : List Char) :
    cycle_output (⟨Function.d, none⟩ :: cmds) ln ps = [] := by
  simp [cycle_output, cmds_output, selects]

theorem emit_delete (cmds : List Command) (n : Nat) (ls : List (List Char)) :
    emit (⟨Function.d, none⟩ :: cmds) n ls = [] := by
  induction ls generalizing n with
  | nil => rfl
  | cons l ls ih => simp [emit, ih, cycle_output_delete]

/-- On a script in a NUL-terminated buffer: a script that begins with the unaddressed delete command `d` gives the
empty output on every input, whatever follows the `d` in the script. -/
theorem execute_delete_first (input rest : List Char) :
    execute input ('d' :: rest) = [] := by
  rw [execute_eq, parse_script_some _ _ _ (parse_command_d rest), emit_delete]

/-! ### Addressed deletes -/

theorem cmds_output_deletes (ns : List Nat) (ln : Nat) (ps : List Char) :
    cmds_output (ns.map (fun n => (⟨Function.d, some ⟨n⟩⟩ : Command))) ln ps =
      ([], decide (ln ∈ ns)) := by
  induction ns with
  | nil => simp [cmds_output]
  | cons n ns ih =>
    simp only [List.map, cmds_output, selects, ih]
    by_cases h : n = ln
    · simp [h]
    · have h2 : ¬ ln = n := fun e => h e.symm
      simp [h, h2]

theorem cycle_output_deletes (ns : List Nat) (ln : Nat) (ps : List Char) :
    cycle_output (ns.map (fun n => (⟨Function.d, some ⟨n⟩⟩ : Command))) ln ps =
      if ln ∈ ns then [] else ps ++ ['\n'] := by
  simp only [cycle_output, cmds_output_deletes]
  by_cases h : ln ∈ ns <;> simp [h]

theorem emit_deletes (ns : List Nat) (ls : List (List Char)) (m : Nat)
    (hm : m + ls.length < SIZE_MOD) :
    emit (ns.map (fun n => (⟨Function.d, some ⟨n⟩⟩ : Command))) m ls =
      unlines (((ls.enumFrom (m + 1)).filter (fun p => decide (p.1 ∉ ns))).map Prod.snd) := by
  induction ls generalizing m with
  | nil => rfl
  | cons l ls ih =>
    simp only [List.length_cons] at hm
    rw [emit_cons _ m l ls (by omega), ih (m + 1) (by omega), cycle_output_deletes,
      List.enumFrom_cons, List.filter_cons]
    by_cases h : m + 1 ∈ ns
    · simp [h]
    · simp [h, unlines_cons]

theorem parse_script_deletes (ns : List Nat) (hns : ∀ n ∈ ns, n < SIZE_MOD) :
    parse_script (List.intercalate [';', ' '] (ns.map (fun n => to_string n ++ ['d']))) =
      ns.map (fun n => (⟨Function.d, some ⟨n⟩⟩ : Command)) := by
  have h := parse_script_intercalate [';', ' ']
    (ns.map (fun n => (⟨Function.d, some ⟨n⟩⟩ : Command)))
    (by intro c hc; simp at hc; rcases hc with h | h <;> simp [h])
    (by
      intro cmd hcmd
      obtain ⟨n, hn, rfl⟩ := List.mem_map.mp hcmd
      exact (valid_iff _).mpr ⟨by simp, by intro a ha; cases ha; exact hns n hn⟩)
  rw [List.map_map] at h
  exact h

/-- On a script in a NUL-terminated buffer: the script of addressed deletes `<n1>d; <n2>d; ...` outputs exactly the
lines of the input whose 1-based position is not among the addresses, in input
order, each followed by one newline. -/
theorem execute_addressed_deletes (input : List Char) (ns : List Nat)
    (hin : input.length < SIZE_MOD) (hns : ∀ n ∈ ns, n < SIZE_MOD) :
    execute input (List.intercalate [';', ' '] (ns.map (fun n => to_string n ++ ['d']))) =
      unlines ((((lines input).enumFrom 1).filter (fun p => decide (p.1 ∉ ns))).map Prod.snd) := by
  have hl := lines_length_le input
  rw [execute_eq, parse_script_deletes ns hns, emit_deletes ns (lines input) 0 (by omega)]

/-! ### Print line number -/

theorem parse_script_single (f : Function) (a : Option Address) (hf : f ≠ Function.none)
    (ha : ∀ x, a = some x → x.line_number < SIZE_MOD) :
    parse_script (address_text a ++ [function_char f]) = [⟨f, a⟩] := by
  have h := parse_command_written [] [] [] f a (by simp) (by simp) hf ha
  simp only [List.nil_append, List.append_nil] at h
  rw [parse_script_some _ _ _ h, parse_script_nil]

theorem emit_equals (ls : List (List Char)) (m : Nat) (hm : m + ls.length < SIZE_MOD) :
    emit [⟨Function.equals, none⟩] m ls =
      ((ls.enumFrom (m + 1)).map
        (fun p => to_string p.1 ++ ['\n'] ++ p.2 ++ ['\n'])).flatten := by
  induction ls generalizing m with
  | nil => rfl
  | cons l ls ih =>
    simp only [List.length_cons] at hm
    rw [emit_cons _ m l ls (by omega), ih (m + 1) (by omega)]
    simp [cycle_output, cmds_output, selects]

/-- On a script in a NUL-terminated buffer: the script `=` outputs, for the lines `l1..lk` of the input in order, the
decimal representation of `i`, a newline, the line `li` and a newline. -/
theorem execute_equals (input : List Char) (hin : input.length < SIZE_MOD) :
    execute input ['='] =
      (((lines input).enumFrom 1).map
        (fun p => to_string p.1 ++ ['\n'] ++ p.2 ++ ['\n'])).flatten := by
  have hl := lines_length_le input
  have hp := parse_script_single Function.equals none (by decide) (by simp)
  simp only [address_text, function_char, List.nil_append] at hp
  rw [execute_eq, hp, emit_equals (lines input) 0 (by omega)]

/-! ### One addressed command -/

theorem drop_pred_eq (ls : List (List Char)) (n : Nat) (h1 : 1 ≤ n) (hn : n ≤ ls.length) :
    ls[n - 1]? = some (ls.getD (n - 1) []) ∧ ls.drop (n - 1) = ls.getD (n - 1) [] :: ls.drop n := by
  have hlt : n - 1 < ls.length := by omega
  have hg : ls.getD (n - 1) [] = ls[n - 1] := by
    simp [List.getD, List.getElem?_eq_getElem hlt]
  refine ⟨by rw [hg]; exact List.getElem?_eq_getElem hlt, ?_⟩
  rw [hg, List.drop_eq_getElem_cons hlt]
  have : n - 1 + 1 = n := by omega
  rw [this]

theorem cycle_output_addressed_equals (n i : Nat) (l : List Char) :
    cycle_output [⟨Function.equals, some ⟨n⟩⟩] i l =
      if i = n then to_string n ++ ['\n'] ++ (l ++ ['\n']) else l ++ ['\n'] := by
  by_cases h : i = n
  · subst h; simp [cycle_output, cmds_output, selects]
  · have h2 : ¬ n = i := fun e => h e.symm
    simp [cycle_output, cmds_output, selects, h, h2]

theorem cycle_output_addressed_print (n i : Nat) (l : List Char) :
    cycle_output [⟨Function.p, some ⟨n⟩⟩] i l =
      if i = n then l ++ ['\n'] ++ (l ++ ['\n']) else l ++ ['\n'] := by
  by_cases h : i = n
  · subst h; simp [cycle_output, cmds_output, selects]
  · have h2 : ¬ n = i := fun e => h e.symm
    simp [cycle_output, cmds_output, selects, h, h2]

/-- On a script in a NUL-terminated buffer: for `1 <= n <= k`, the script `<n>=` outputs what the empty script outputs
on the same input, with the line `<n>` inserted just before the `n`-th line. -/
theorem execute_addressed_equals (input : List Char) (n : Nat) (h1 : 1 ≤ n)
    (hn : n ≤ (lines input).length) (hin : input.length < SIZE_MOD) :
    execute input (to_string n ++ ['=']) =
        unlines ((lines input).take (n - 1)) ++ (to_string n ++ ['\n']) ++
          unlines ((lines input).drop (n - 1)) ∧
    execute input [] =
        unlines ((lines input).take (n - 1)) ++ unlines ((lines input).drop (n - 1)) := by
  have hl := lines_length_le input
  have hp := parse_script_single Function.equals (some ⟨n⟩) (by decide)
    (by intro x hx; cases hx; exact Nat.lt_of_le_of_lt (Nat.le_trans hn hl) hin)
  simp only [address_text, function_char] at hp
  constructor
  · rw [execute_eq, hp, emit_at _ n (lines input) 0 (by omega) (by omega) (by omega)
      (fun i l hi => by rw [cycle_output_addressed_equals, if_neg hi]),
      cycle_output_addressed_equals, if_pos rfl, (drop_pred_eq (lines input) n h1 hn).2,
      unlines_cons]
    simp [List.append_assoc]
  · rw [execute_eq, parse_script_nil, emit_nil, ← unlines_append, List.take_append_drop]

/-- On a script in a NUL-terminated buffer: for `1 <= n <= k`, the script `<n>p` outputs every line of the input once,
in order and newline-terminated, except the `n`-th line, which is output twice in
a row. -/
theorem execute_addressed_print (input : List Char) (n : Nat) (h1 : 1 ≤ n)
    (hn : n ≤ (lines input).length) (hin : input.length < SIZE_MOD) :
    ∃ l, (lines input)[n - 1]? = some l ∧
      execute input (to_string n ++ ['p']) =
        unlines ((lines input).take (n - 1)) ++ (l ++ ['\n']) ++ (l ++ ['\n']) ++
          unlines ((lines input).drop n) := by
  have hl := lines_length_le input
  have hp := parse_script_single Function.p (some ⟨n⟩) (by decide)
    (by intro x hx; cases hx; exact Nat.lt_of_le_of_lt (Nat.le_trans hn hl) hin)
  simp only [address_text, function_char] at hp
  refine ⟨(lines input).getD (n - 1) [], (drop_pred_eq (lines input) n h1 hn).1, ?_⟩
  rw [execute_eq, hp, emit_at _ n (lines input) 0 (by omega) (by omega) (by omega)
    (fun i l hi => by rw [cycle_output_addressed_print, if_neg hi]),
    cycle_output_addressed_print, if_pos rfl]
  simp [List.append_assoc]

/-! ### The script syntax -/

/-- On a script in a NUL-terminated buffer: the text `decimal(n) ++ b ++ f`, with `b` any string of spaces and tabs
and `f` one of the function characters `d`, `=`, `p`, compiles to exactly the one
command with the function of `f` and the address `n`; the blanks change nothing. -/
theorem parse_script_address_blanks_function (n : Nat) (b : List Char) (f : Function)
    (hn : n < SIZE_MOD) (hb : ∀ c ∈ b, c = ' ' ∨ c = '\t') (hf : f ≠ Function.none) :
    parse_script (to_string n ++ b ++ [function_char f]) = [⟨f, some ⟨n⟩⟩] ∧
    parse_script (to_string n ++ b ++ [function_char f]) =
      parse_script (to_string n ++ [function_char f]) := by
  have ha : ∀ x : Address, some (⟨n⟩ : Address) = some x → x.line_number < SIZE_MOD := by
    intro x hx; cases hx; exact hn
  have h := parse_command_written [] b [] f (some ⟨n⟩) (by simp)
    (fun c hc => (isblank_iff c).mpr (hb c hc)) hf ha
  have h0 := parse_script_single f (some ⟨n⟩) hf ha
  simp only [address_text, List.nil_append] at h h0
  rw [parse_script_some _ _ _ h, parse_script_nil, h0]
  exact ⟨rfl, rfl⟩

/-- On a script in a NUL-terminated buffer, blanks and semicolons before a script
are ignored: for every string `w` of
spaces, tabs and `;` and every script text `s`, `w ++ s` compiles to the same
commands as `s` and therefore runs like `s` on every input. -/
theorem leading_separators_ignored (w s : List Char)
    (hw : ∀ c ∈ w, c = ' ' ∨ c = '\t' ∨ c = ';') :
    parse_script (w ++ s) = parse_script s ∧
    ∀ input, execute input (w ++ s) = execute input s := by
  have h := parse_script_skip w s hw
  exact ⟨h, fun input => by simp only [execute, h]⟩

/-- On a script in a NUL-terminated buffer, round trip of the script syntax: commands with a recognised function and
an address that is absent or fits the address type, each written as its decimal
address followed by its function character and joined with `;`, compile back to
exactly that sequence. -/
theorem parse_script_written (cmds : List Command) (hv : ∀ cmd ∈ cmds, cmd.valid = true) :
    parse_script (List.intercalate [';'] (cmds.map written)) = cmds :=
  parse_script_intercalate [';'] cmds (by simp) hv

/-! ### The address parser -/

theorem digits_value_eq_decimal_value (ds : List Char) : digits_value ds = decimal_value ds := by
  induction ds using List.reverseRecOn with
  | nil => simp [digits_value, decimal_value]
  | append_singleton ds c ih =>
    rw [digits_value_snoc, ih]
    simp [decimal_value, Nat.ofDigits_cons]
    omega

theorem takeWhile_nil_iff (text : List Char) :
    text.takeWhile Char.isDigit = [] ↔ begins_with_digit text = false := by
  cases text with
  | nil => simp [begins_with_digit]
  | cons c t => cases hc : c.isDigit <;> simp [List.takeWhile, hc, begins_with_digit]

theorem begins_with_digit_dropWhile (text : List Char) :
    begins_with_digit (text.dropWhile Char.isDigit) = false := by
  induction text with
  | nil => rfl
  | cons c t ih =>
    cases hc : c.isDigit with
    | false => simp [List.dropWhile, hc, begins_with_digit]
    | true => simpa [List.dropWhile, hc] using ih

theorem takeWhile_digit_run (ds rest : List Char) (hds : ∀ c ∈ ds, c.isDigit = true)
    (hrest : begins_with_digit rest = false) : (ds ++ rest).takeWhile Char.isDigit = ds := by
  rw [List.takeWhile_append_of_pos hds, (takeWhile_nil_iff rest).mpr hrest, List.append_nil]

theorem parse_address_run (ds rest : List Char) (hne : ds ≠ [])
    (hds : ∀ c ∈ ds, c.isDigit = true) (hrest : begins_with_digit rest = false) :
    parse_address (ds ++ rest) =
      if decimal_value ds < SIZE_MOD then (some ⟨decimal_value ds⟩, rest)
      else (none, ds ++ rest) := by
  have he : ds.isEmpty = false := by
    cases ds with
    | nil => exact absurd rfl hne
    | cons _ _ => rfl
  simp only [parse_address, from_chars, takeWhile_digit_run ds rest hds hrest, he,
    digits_value_eq_decimal_value]
  by_cases h : decimal_value ds < SIZE_MOD <;> simp [h]

/-- C10 as stated fails: the text `18446744073709551616` (the value `2 ^ 64`) begins
with a decimal digit, yet `parse_address` returns nothing and leaves the cursor
unchanged. -/
theorem parse_address_out_of_range :
    begins_with_digit "18446744073709551616".toList = true ∧
    parse_address "18446744073709551616".toList = (none, "18446744073709551616".toList) :=
  ⟨by decide, by decide⟩

/-- C10, amended. Let `ds` be the maximal leading run of decimal digits of the text
and `rest` what follows it (every text that begins with a decimal digit splits so,
with `ds` not empty). If the text begins with a decimal digit and the value of `ds`
fits the address type, `parse_address` returns the address with that value and
leaves the cursor at `rest`. If the text does not begin with a decimal digit, or
the value of `ds` does not fit the address type, it returns nothing and leaves the
cursor unchanged. It returns nothing in no other case. -/
theorem parse_address_spec (text : List Char) :
    (begins_with_digit text = false → parse_address text = (none, text)) ∧
    (∀ ds rest, text = ds ++ rest → ds ≠ [] → (∀ c ∈ ds, c.isDigit = true) →
      begins_with_digit rest = false →
        (decimal_value ds < SIZE_MOD → parse_address text = (some ⟨decimal_value ds⟩, rest)) ∧
        (SIZE_MOD ≤ decimal_value ds → parse_address text = (none, text))) ∧
    (begins_with_digit text = true →
      ∃ ds rest, text = ds ++ rest ∧ ds ≠ [] ∧ (∀ c ∈ ds, c.isDigit = true) ∧
        begins_with_digit rest = false) ∧
    ((parse_address text).1 = none →
      begins_with_digit text = false ∨
      SIZE_MOD ≤ decimal_value (text.takeWhile Char.isDigit)) := by
  refine ⟨?_, ?_, ?_, ?_⟩
  · intro h
    exact parse_address_no_digit text ((takeWhile_nil_iff text).mpr h)
  · intro ds rest ht hne hds hrest
    subst ht
    rw [parse_address_run ds rest hne hds hrest]
    exact ⟨fun h => by rw [if_pos h], fun h => by rw [if_neg (by omega)]⟩
  · intro h
    refine ⟨text.takeWhile Char.isDigit, text.dropWhile Char.isDigit,
      (List.takeWhile_append_dropWhile Char.isDigit text).symm, ?_,
      fun c hc => List.mem_takeWhile_imp hc, begins_with_digit_dropWhile text⟩
    intro he
    rw [(takeWhile_nil_iff text).mp he] at h
    exact absurd h (by decide)
  · intro h
    by_cases he : text.takeWhile Char.isDigit = []
    · exact Or.inl ((takeWhile_nil_iff text).mp he)
    · right
      have hemp : (text.takeWhile Char.isDigit).isEmpty = false := by
        cases hd : text.takeWhile Char.isDigit with
        | nil => exact absurd hd he
        | cons _ _ => rfl
      by_contra hlt
      have hlt2 : digits_value (text.takeWhile Char.isDigit) < SIZE_MOD := by
        rw [digits_value_eq_decimal_value]; omega
      simp [parse_address, from_chars, hemp, hlt2] at h

/-- Witness for C10 as amended: a text without leading digit, a text whose
leading digits fit the address type and one whose leading digits do not. -/
theorem parse_address_spec_witness :
    parse_address "d12".toList = (none, "d12".toList) ∧
    (decimal_value "12".toList < SIZE_MOD ∧
      parse_address "12 d".toList = (some ⟨decimal_value "12".toList⟩, " d".toList)) ∧
    (SIZE_MOD ≤ decimal_value "18446744073709551616".toList ∧
      parse_address "18446744073709551616d".toList = (none, "18446744073709551616d".toList)) :=
  ⟨(parse_address_spec "d12".toList).1 (by decide),
   ⟨by decide,
    ((parse_address_spec "12 d".toList).2.1 "12".toList " d".toList (by decide) (by decide)
      (by decide) (by decide)).1 (by decide)⟩,
   ⟨by decide,
    ((parse_address_spec "18446744073709551616d".toList).2.1 "18446744073709551616".toList
      "d".toList (by decide) (by decide) (by decide) (by decide)).2 (by decide)⟩⟩

/-! ### End of the script -/

theorem parse_command_at_nul (input : List Char) :
    parse_command_at (Char.ofNat 0) input = parse_command input := rfl

theorem parse_script_loop_at_nul (fuel : Nat) (script : List Char) :
    parse_script_loop_at (Char.ofNat 0) fuel script = parse_script_loop fuel script := rfl

/-- Where the cursor is not empty when the function character is read, the byte
after the view plays no part. -/
theorem parse_command_at_eq (past : Char) (input : List Char)
    (h : (eat_blank (parse_address (skip_separators input)).2).2 ≠ []) :
    parse_command_at past input = parse_command input := by
  simp only [parse_command, parse_command_at]
  cases hi : (eat_blank (parse_address (skip_separators input)).2).2 with
  | nil => exact absurd hi h
  | cons c t => rfl

theorem parse_command_at_some (past : Char) (s r : List Char) (cmd : Command)
    (h : parse_command s = (some cmd, r)) : parse_command_at past s = (some cmd, r) := by
  rw [parse_command_at_eq past s, h]
  intro hi
  simp [parse_command, parse_command_at, hi, front_at] at h

theorem unrecognised_facts (c : Char) (h : unrecognised c = true) :
    c.isDigit = false ∧ isblank c = false ∧ (c == ';') = false ∧
      c ≠ 'd' ∧ c ≠ '=' ∧ c ≠ 'p' := by
  simpa [unrecognised, not_or, and_assoc] using h

theorem parse_command_at_unrecognised (past c : Char) (t : List Char)
    (h : unrecognised c = true) : parse_command_at past (c :: t) = (none, t) := by
  obtain ⟨hd, hb, hs, h1, h2, h3⟩ := unrecognised_facts c h
  simp [parse_command_at, skip_separators, hb, hs,
    parse_address_no_digit _ (takeWhile_isDigit_cons c t hd), eat_blank, front_at, eat_n,
    h1, h2, h3]

theorem parse_command_unrecognised (c : Char) (t : List Char) (h : unrecognised c = true) :
    parse_command (c :: t) = (none, t) :=
  parse_command_at_unrecognised (Char.ofNat 0) c t h

theorem parse_command_at_skip (past : Char) (w s : List Char)
    (hw : ∀ c ∈ w, c = ' ' ∨ c = '\t' ∨ c = ';') :
    parse_command_at past (w ++ s) = parse_command_at past s := by
  simp only [parse_command_at, skip_separators_append w s hw]

theorem intercalate_written_cons (sep : List Char) (cmd c2 : Command) (cmds : List Command)
    (tail : List Char) :
    List.intercalate sep ((cmd :: c2 :: cmds).map written) ++ tail =
      [] ++ address_text cmd.address ++ [] ++ function_char cmd.function ::
        (sep ++ (List.intercalate sep ((c2 :: cmds).map written) ++ tail)) := by
  simp [List.intercalate, List.intersperse, written]

theorem intercalate_written_single (sep : List Char) (cmd : Command) (tail : List Char) :
    List.intercalate sep ([cmd].map written) ++ tail =
      [] ++ address_text cmd.address ++ [] ++ function_char cmd.function :: tail := by
  simp [List.intercalate, List.intersperse, written]

/-- Written commands followed by any text: the commands are parsed back and the
parse goes on in the text that follows. -/
theorem parse_script_intercalate_append (sep : List Char) (cmds : List Command)
    (tail : List Char) (hsep : ∀ c ∈ sep, c = ' ' ∨ c = '\t' ∨ c = ';')
    (hv : ∀ cmd ∈ cmds, cmd.valid = true) :
    parse_script (List.intercalate sep (cmds.map written) ++ tail) =
      cmds ++ parse_script tail := by
  induction cmds with
  | nil => simp [List.intercalate]
  | cons cmd cmds ih =>
    have hcv := (valid_iff cmd).mp (hv cmd (List.mem_cons_self _ _))
    have ih2 := ih (fun c hc => hv c (List.mem_cons_of_mem _ hc))
    cases cmds with
    | nil =>
      have hp := parse_command_written [] [] tail cmd.function cmd.address (by simp) (by simp)
        hcv.1 hcv.2
      rw [intercalate_written_single, parse_script_some _ _ _ hp]
      rfl
    | cons c2 cmds =>
      have hp := parse_command_written [] []
        (sep ++ (List.intercalate sep ((c2 :: cmds).map written) ++ tail))
        cmd.function cmd.address (by simp) (by simp) hcv.1 hcv.2
      rw [intercalate_written_cons, parse_script_some _ _ _ hp, parse_script_skip _ _ hsep, ih2]
      rfl

/-- The same on a view over any buffer, when the text that follows begins with an
unrecognised character: the parse never reaches the end of the view. -/
theorem parse_script_loop_at_intercalate (past : Char) (sep : List Char) (cmds : List Command)
    (c : Char) (t : List Char) (fuel : Nat) (hsep : ∀ c ∈ sep, c = ' ' ∨ c = '\t' ∨ c = ';')
    (hv : ∀ cmd ∈ cmds, cmd.valid = true) (hc : unrecognised c = true)
    (hfuel : cmds.length < fuel) :
    parse_script_loop_at past fuel (List.intercalate sep (cmds.map written) ++ c :: t) =
      cmds := by
  induction cmds generalizing fuel with
  | nil =>
    cases fuel with
    | zero => simp at hfuel
    | succ fuel =>
      simp [List.intercalate, parse_script_loop_at, parse_command_at_unrecognised past c t hc]
  | cons cmd cmds ih =>
    have hcv := (valid_iff cmd).mp (hv cmd (List.mem_cons_self _ _))
    have ih2 := fun f => ih f (fun c hc => hv c (List.mem_cons_of_mem _ hc))
    cases fuel with
    | zero => simp at hfuel
    | succ fuel =>
      simp only [List.length_cons] at hfuel
      cases cmds with
      | nil =>
        have hp := parse_command_at_some past _ _ _
          (parse_command_written [] [] (c :: t) cmd.function cmd.address (by simp) (by simp)
            hcv.1 hcv.2)
        have h0 := ih2 fuel (by simpa using hfuel)
        simp only [List.map_nil, List.intercalate, List.intersperse, List.flatten_nil,
          List.nil_append] at h0
        rw [intercalate_written_single]
        simp only [parse_script_loop_at, hp, h0]
      | cons c2 cmds =>
        have hp := parse_command_at_some past _ _ _
          (parse_command_written [] []
            (sep ++ (List.intercalate sep ((c2 :: cmds).map written) ++ c :: t))
            cmd.function cmd.address (by simp) (by simp) hcv.1 hcv.2)
        have h0 := ih2 fuel (by simpa using hfuel)
        cases fuel with
        | zero => simp at hfuel
        | succ fuel =>
          rw [intercalate_written_cons]
          simp only [parse_script_loop_at, hp]
          simp only [parse_script_loop_at] at h0
          rw [parse_command_at_skip past sep _ hsep]
          rw [h0]

/-- C11. Stop at first failure: valid commands written in the script syntax and
joined by `;`, followed by an unrecognised character `c` and any text `t`, compile
to exactly those commands, on a view over any buffer; in particular a script whose
first character after the separators is unrecognised compiles to the empty
sequence. -/
theorem parse_script_stops_at_unrecognised (cmds : List Command) (c : Char) (t : List Char)
    (hv : ∀ cmd ∈ cmds, cmd.valid = true) (hc : unrecognised c = true) :
    parse_script (List.intercalate [';'] (cmds.map written) ++ c :: t) = cmds ∧
    (∀ w : List Char, (∀ x ∈ w, x = ' ' ∨ x = '\t' ∨ x = ';') →
      parse_script (w ++ c :: t) = []) ∧
    (∀ past fuel, cmds.length < fuel →
      parse_script_loop_at past fuel
        (List.intercalate [';'] (cmds.map written) ++ c :: t) = cmds) := by
  have hn : parse_script (c :: t) = [] :=
    parse_script_none _ _ (parse_command_unrecognised c t hc)
  refine ⟨?_, ?_, ?_⟩
  · rw [parse_script_intercalate_append [';'] cmds (c :: t) (by simp) hv, hn,
      List.append_nil]
  · intro w hw
    rw [parse_script_skip w _ hw, hn]
  · intro past fuel hfuel
    exact parse_script_loop_at_intercalate past [';'] cmds c t fuel (by simp) hv hc hfuel

/-- Witness for C11: the script `2d;=x3p`. -/
theorem parse_script_stops_at_unrecognised_witness :
    (∀ cmd ∈ [(⟨Function.d, some ⟨2⟩⟩ : Command), ⟨Function.equals, none⟩],
      cmd.valid = true) ∧
    unrecognised 'x' = true ∧
    parse_script (List.intercalate [';']
        ([(⟨Function.d, some ⟨2⟩⟩ : Command), ⟨Function.equals, none⟩].map written) ++
          'x' :: "3p".toList) =
      [⟨Function.d, some ⟨2⟩⟩, ⟨Function.equals, none⟩] :=
  ⟨by decide, by decide,
    (parse_script_stops_at_unrecognised
      [(⟨Function.d, some ⟨2⟩⟩ : Command), ⟨Function.equals, none⟩] 'x' "3p".toList
      (by decide) (by decide)).1⟩

theorem begins_with_digit_blanks (b : List Char) (hb : ∀ c ∈ b, isblank c = true) :
    begins_with_digit b = false := by
  cases b with
  | nil => rfl
  | cons c b =>
    have hc := hb c (List.mem_cons_self _ _)
    cases hd : c.isDigit with
    | false => simp [begins_with_digit, hd]
    | true => have := isDigit_not_sep c hd; simp [hc] at this

theorem isDigit_not_blank (c : Char) (h : c.isDigit = true) : isblank c = false := by
  have := isDigit_not_sep c h
  simp only [Bool.or_eq_false_iff] at this
  exact this.1

theorem isDigit_not_function (c : Char) (h : c.isDigit = true) :
    c ≠ 'd' ∧ c ≠ '=' ∧ c ≠ 'p' := by
  refine ⟨?_, ?_, ?_⟩ <;> rintro rfl <;> exact absurd h (by decide)

/-- On a NUL-terminated buffer, a text of separators, then decimal digits, then
blanks holds no command. -/
theorem parse_command_exhausted (w ds b : List Char)
    (hw : ∀ c ∈ w, c = ' ' ∨ c = '\t' ∨ c = ';') (hds : ∀ c ∈ ds, c.isDigit = true)
    (hb : ∀ c ∈ b, isblank c = true) :
    (parse_command (w ++ ds ++ b)).1 = none := by
  cases ds with
  | nil =>
    have hwb : ∀ c ∈ w ++ b, c = ' ' ∨ c = '\t' ∨ c = ';' := by
      intro c hc
      rcases List.mem_append.mp hc with h | h
      · exact hw c h
      · rcases (isblank_iff c).mp (hb c h) with h | h
        · exact Or.inl h
        · exact Or.inr (Or.inl h)
    have := parse_command_skip (w ++ b) [] hwb
    rw [List.append_nil] at this
    rw [List.append_nil, this, parse_command_nil]
  | cons d ds =>
    have hd : d.isDigit = true := hds d (List.mem_cons_self _ _)
    have hskip : skip_separators ((d :: ds) ++ b) = (d :: ds) ++ b :=
      skip_separators_cons_of_not _ _ (isDigit_not_sep d hd)
    have hpa := parse_address_run (d :: ds) b (by simp) hds (begins_with_digit_blanks b hb)
    have heb : (eat_blank b).2 = [] := by
      have := eat_blank_append b [] hb
      rw [List.append_nil] at this
      rw [this]; rfl
    obtain ⟨n1, n2, n3⟩ := isDigit_not_function d hd
    rw [List.append_assoc, parse_command_skip w _ hw]
    simp only [parse_command, parse_command_at, hskip, hpa]
    by_cases hlt : decimal_value (d :: ds) < SIZE_MOD
    · simp only [if_pos hlt, heb, front_at, List.headD_nil]
      rw [if_neg (by decide), if_neg (by decide), if_neg (by decide)]
    · have he : eat_blank (d :: (ds ++ b)) = (false, d :: (ds ++ b)) :=
        eat_blank_cons_of_not d _ (isDigit_not_blank d hd)
      simp only [if_neg hlt, List.cons_append, he, front_at, List.headD_cons, n1, n2, n3,
        if_false]

/-- C12, failing input: the script text `2` held in a buffer whose next byte is `d`
(the first character of the buffer `2d`).  The cursor is empty when the function
character is read, and `parse_command` returns a delete command built from the
byte after the view, consuming nothing; it does so again on the empty cursor it
leaves. -/
theorem parse_command_at_reads_past_view :
    parse_command_at 'd' ['2'] = (some ⟨Function.d, some ⟨2⟩⟩, []) ∧
    parse_command_at 'd' [] = (some ⟨Function.d, none⟩, []) :=
  ⟨by decide, by decide⟩

/-! ### Empty input, line splitting -/

/-- On a script in a NUL-terminated buffer: on the empty input `execute` returns the empty text for every script, and
its loop makes no call of `run_cycle`, whatever the engine state. -/
theorem execute_empty_input (script : List Char) :
    execute [] script = [] ∧
    ∀ (fuel : Nat) (sed : StreamEditor),
      execute_loop fuel sed [] = (sed, []) ∧ execute_cycles fuel sed [] = 0 := by
  refine ⟨rfl, ?_⟩
  intro fuel sed
  cases fuel <;> exact ⟨rfl, rfl⟩

theorem get_until_fst_not_mem (t : List Char) (c : Char) : c ∉ (get_until t c).1 := by
  induction t with
  | nil => simp [get_until]
  | cons x t ih =>
    simp only [get_until]
    split
    · simp
    · rename_i hx
      simp only [List.mem_cons, not_or]
      exact ⟨fun e => hx e.symm, ih⟩

theorem get_until_of_mem (t : List Char) (c : Char) (h : c ∈ t) :
    (get_until t c).1 ++ c :: (get_until t c).2 = t := by
  induction t with
  | nil => simp at h
  | cons x t ih =>
    simp only [get_until]
    split
    · rename_i hx; simp [hx]
    · rename_i hx
      have ht : c ∈ t := by
        rcases List.mem_cons.mp h with e | e
        · exact absurd e.symm hx
        · exact e
      simp [ih ht]

theorem get_until_of_not_mem (t : List Char) (c : Char) (h : c ∉ t) :
    get_until t c = (t, []) := by
  induction t with
  | nil => rfl
  | cons x t ih =>
    simp only [List.mem_cons, not_or] at h
    have hx : ¬ x = c := fun e => h.1 e.symm
    simp [get_until, hx, ih h.2]

/-- C14. `get_until` splits the text at the first occurrence of the delimiter: when
the delimiter occurs, the returned text is the part before its first occurrence
(it holds no delimiter) and the cursor becomes the part after it; when it does not
occur, the returned text is the whole text and the cursor becomes empty.  On the
empty text both are empty.  `get_line` is `get_until` with the newline. -/
theorem get_until_spec (t : List Char) (c : Char) :
    (c ∈ t → (get_until t c).1 ++ c :: (get_until t c).2 = t ∧ c ∉ (get_until t c).1) ∧
    (c ∉ t → get_until t c = (t, [])) ∧
    get_until [] c = ([], []) ∧
    get_line t = get_until t '\n' :=
  ⟨fun h => ⟨get_until_of_mem t c h, get_until_fst_not_mem t c⟩,
    get_until_of_not_mem t c, rfl, rfl⟩

/-- Witness for C14: a text with a newline and a text without. -/
theorem get_until_spec_witness :
    ('\n' ∈ "line1\nline2".toList ∧
      (get_until "line1\nline2".toList '\n').1 ++ '\n' :: (get_until "line1\nline2".toList '\n').2 =
        "line1\nline2".toList ∧
      '\n' ∉ (get_until "line1\nline2".toList '\n').1) ∧
    ('\n' ∉ "line".toList ∧ get_until "line".toList '\n' = ("line".toList, [])) :=
  ⟨⟨by decide, (get_until_spec "line1\nline2".toList '\n').1 (by decide)⟩,
    ⟨by decide, (get_until_spec "line".toList '\n').2.1 (by decide)⟩⟩

/-! ### Invariants of a cycle -/

theorem run_commands_line_number (cmds : List Command) (sed : StreamEditor) :
    (run_commands cmds sed).1.line_number = sed.line_number := by
  rw [run_commands_eq]

theorem run_cycle_hold_space (sed : StreamEditor) (input : List Char) :
    (run_cycle sed input).1.hold_space = sed.hold_space := by
  simp only [run_cycle, run_commands_eq]
  cases (cmds_output sed.commands ((sed.line_number + 1) % SIZE_MOD) (get_line input).1).2 <;>
    simp [write_line]

theorem lines_eq_nil (input : List Char) (h : lines input = []) : input = [] := by
  by_contra hne
  exact lines_ne_nil input hne h

theorem execute_loop_line_number (k : Nat) (sed : StreamEditor) (input : List Char)
    (hk : k ≤ (lines input).length) (hm : sed.line_number + k < SIZE_MOD) :
    (execute_loop k sed input).1.line_number = sed.line_number + k := by
  induction k generalizing sed input with
  | zero => rfl
  | succ k ih =>
    cases input with
    | nil => simp [lines_nil] at hk
    | cons x xs =>
      rw [lines_get_line (x :: xs) (by simp)] at hk
      simp only [List.length_cons] at hk
      have hl : (run_cycle sed (x :: xs)).1.line_number = sed.line_number + 1 := by
        rw [run_cycle_line_number, Nat.mod_eq_of_lt (by omega)]
      simp only [execute_loop, List.isEmpty_cons, Bool.false_eq_true, if_false]
      rw [ih _ _ (by rw [run_cycle_cursor]; omega) (by rw [hl]; omega), hl]
      omega

/-- C15 as stated fails: in the state whose `line_number` is the largest value of
`std::size_t`, one call of `run_cycle` resets `line_number` to `0`. -/
theorem run_cycle_line_number_wraps :
    (run_cycle ⟨[], [], [], [], 18446744073709551615⟩ ['a']).1.line_number = 0 ∧
    (run_cycle ⟨[], [], [], [], 18446744073709551615⟩ ['a']).1.line_number ≠
      18446744073709551615 + 1 :=
  ⟨by decide, by decide⟩

/-- C15, amended. In every engine state whose `line_number` is below the largest
value of `std::size_t`, for every command sequence and every input cursor, one call
of `run_cycle` increases `line_number` by exactly 1, also when a delete ends the
cycle early; no command changes `line_number`; so in a run of `execute` from the
fresh state the state after `k` cycles has `line_number = k`, which is what the
commands of the `k`-th cycle ran with. -/
theorem run_cycle_increments (sed : StreamEditor) (input : List Char)
    (h : sed.line_number + 1 < SIZE_MOD) :
    (run_cycle sed input).1.line_number = sed.line_number + 1 ∧
    (∀ (cmds : List Command) (s : StreamEditor),
      (run_commands cmds s).1.line_number = s.line_number) ∧
    (∀ (cmds : List Command) (text : List Char) (k : Nat),
      text.length < SIZE_MOD → k ≤ (lines text).length →
        (execute_loop k (StreamEditor.new cmds) text).1.line_number = k) := by
  refine ⟨?_, run_commands_line_number, ?_⟩
  · rw [run_cycle_line_number, Nat.mod_eq_of_lt h]
  · intro cmds text k ht hk
    have hl := lines_length_le text
    rw [execute_loop_line_number k _ text hk (by simp only [StreamEditor.new]; omega)]
    simp [StreamEditor.new]

/-- Witness for C15 as amended: a cycle that a delete ends early. -/
theorem run_cycle_increments_witness :
    (4 : Nat) + 1 < SIZE_MOD ∧
    (run_cycle ⟨[⟨Function.d, none⟩], [], [], [], 4⟩ "line\nrest".toList).1.line_number =
      4 + 1 :=
  ⟨by decide,
    (run_cycle_increments ⟨[⟨Function.d, none⟩], [], [], [], 4⟩ "line\nrest".toList
      (by decide)).1⟩

theorem get_until_proper_suffix (input : List Char) (c : Char) (h : input ≠ []) :
    ∃ pre, pre ≠ [] ∧ input = pre ++ (get_until input c).2 := by
  by_cases hc : c ∈ input
  · refine ⟨(get_until input c).1 ++ [c], by simp, ?_⟩
    rw [List.append_assoc, List.singleton_append, get_until_of_mem input c hc]
  · refine ⟨input, h, ?_⟩
    rw [get_until_of_not_mem input c hc, List.append_nil]

theorem execute_loop_fuel (f1 f2 : Nat) (sed : StreamEditor) (input : List Char)
    (h1 : input.length ≤ f1) (h2 : input.length ≤ f2) :
    execute_loop f1 sed input = execute_loop f2 sed input := by
  induction f1 generalizing f2 sed input with
  | zero =>
    have : input = [] := List.length_eq_zero.mp (by omega)
    subst this
    cases f2 <;> rfl
  | succ f1 ih =>
    cases input with
    | nil => cases f2 <;> rfl
    | cons x xs =>
      have hl : (run_cycle sed (x :: xs)).2.length ≤ xs.length := by
        rw [run_cycle_cursor]
        have := get_until_length (x :: xs) '\n'
        simpa [get_line] using this
      simp only [List.length_cons] at h1 h2
      cases f2 with
      | zero => omega
      | succ f2 =>
        simp only [execute_loop, List.isEmpty_cons, Bool.false_eq_true, if_false]
        exact ih f2 _ _ (by omega) (by omega)

theorem execute_cycles_eq (fuel : Nat) (sed : StreamEditor) (input : List Char)
    (h : input.length ≤ fuel) : execute_cycles fuel sed input = (lines input).length := by
  induction fuel generalizing sed input with
  | zero =>
    have : input = [] := List.length_eq_zero.mp (by omega)
    simp [execute_cycles, this, lines_nil]
  | succ fuel ih =>
    cases input with
    | nil => simp [execute_cycles, lines_nil]
    | cons x xs =>
      have hl : (run_cycle sed (x :: xs)).2.length ≤ fuel := by
        rw [run_cycle_cursor]
        have := get_until_length (x :: xs) '\n'
        simp only [List.length_cons, get_line] at h this ⊢
        omega
      simp only [execute_cycles, List.isEmpty_cons, Bool.false_eq_true, if_false]
      rw [ih _ _ hl, run_cycle_cursor, lines_get_line (x :: xs) (by simp), List.length_cons]
      omega

/-- The number of lines of a text: its newlines, and one more when the text is not
empty and does not end with a newline. -/
theorem lines_length (input : List Char) :
    (lines input).length =
      input.count '\n' + if input ≠ [] ∧ input.getLast? ≠ some '\n' then 1 else 0 := by
  induction input with
  | nil => simp [lines_nil]
  | cons x xs ih =>
    by_cases hx : x = '\n'
    · subst hx
      rw [lines_cons_newline, List.length_cons, ih, List.count_cons_self]
      cases xs with
      | nil => simp
      | cons y ys => simp only [List.getLast?_cons_cons]; simp; omega
    · rw [lines_cons_other x xs hx, List.count_cons_of_ne (Ne.symm hx)]
      cases xs with
      | nil => simp [lines_nil, hx]
      | cons y ys =>
        have hne := lines_ne_nil (y :: ys) (by simp)
        cases hl : lines (y :: ys) with
        | nil => exact absurd hl hne
        | cons l ls =>
          rw [hl] at ih
          simp only [List.length_cons, List.getLast?_cons_cons] at ih ⊢
          rw [ih]
          simp

/-- The loop of `execute`, once the script is compiled.  On a non-empty cursor
`run_cycle` leaves a proper suffix of the cursor it
was given, strictly shorter; hence the loop of `execute` ends on the empty cursor
within `input.length` iterations, whatever the engine state (so whatever the
script), more iterations allowed change nothing, and the number of cycles is the
number of lines of the input: its newlines, plus one when the input is not empty
and does not end with a newline. -/
theorem run_cycle_consumes (sed : StreamEditor) (input : List Char) :
    (input ≠ [] →
      (∃ pre, pre ≠ [] ∧ input = pre ++ (run_cycle sed input).2) ∧
      (run_cycle sed input).2.length < input.length) ∧
    (∀ fuel, input.length ≤ fuel →
      (execute_loop fuel sed input).2 = [] ∧
      execute_loop fuel sed input = execute_loop input.length sed input ∧
      execute_cycles fuel sed input =
        input.count '\n' + if input ≠ [] ∧ input.getLast? ≠ some '\n' then 1 else 0) ∧
    execute_cycles input.length sed input = (lines input).length := by
  refine ⟨?_, ?_, execute_cycles_eq _ sed input (Nat.le_refl _)⟩
  · intro h
    rw [run_cycle_cursor]
    refine ⟨get_until_proper_suffix input '\n' h, ?_⟩
    have := get_until_length input '\n'
    have hpos : 0 < input.length := List.length_pos.mpr h
    simp only [get_line]
    omega
  · intro fuel hf
    exact ⟨execute_loop_cursor fuel sed input hf,
      execute_loop_fuel fuel input.length sed input hf (Nat.le_refl _),
      by rw [execute_cycles_eq fuel sed input hf, lines_length]⟩

/-- C17. `output` is append-only: the output held before a call of `run_cycle` is
a prefix of the output held after it, for every engine state and every cursor; the
same holds for the commands of a cycle, delete included, and for `write_line`. -/
theorem run_cycle_output_prefix (sed : StreamEditor) (input : List Char) :
    sed.output <+: (run_cycle sed input).1.output ∧
    (∀ cmds : List Command, sed.output <+: (run_commands cmds sed).1.output) ∧
    (∀ line : List Char, sed.output <+: (write_line sed line).output) := by
  refine ⟨?_, ?_, ?_⟩
  · rw [run_cycle_output]
    exact List.prefix_append _ _
  · intro cmds
    rw [run_commands_eq]
    exact List.prefix_append _ _
  · intro line
    simp only [write_line, List.append_assoc]
    exact List.prefix_append _ _

/-- C18. `run_cycle` leaves `hold_space` and the command sequence exactly as they
were, for every engine state and every input cursor. -/
theorem run_cycle_frame (sed : StreamEditor) (input : List Char) :
    (run_cycle sed input).1.hold_space = sed.hold_space ∧
    (run_cycle sed input).1.commands = sed.commands :=
  ⟨run_cycle_hold_space sed input, run_cycle_commands sed input⟩

/-! ### An address that names no line -/

theorem cycle_output_not_selected (f : Function) (n i : Nat) (l : List Char) (h : n ≠ i) :
    cycle_output [⟨f, some ⟨n⟩⟩] i l = l ++ ['\n'] := by
  cases f <;> simp [cycle_output, cmds_output, selects, h]

theorem decimal_value_to_string (n : Nat) : decimal_value (to_string n) = n := by
  rw [← digits_value_eq_decimal_value, digits_value_to_string]

/-- An address that does not fit `std::size_t`: `parse_address` fails and the
first digit is read as the function character. -/
theorem parse_script_overflow (n : Nat) (f : Function) (hf : f ≠ Function.none)
    (hn : SIZE_MOD ≤ n) : parse_script (to_string n ++ [function_char f]) = [] := by
  obtain ⟨hfd, _, _⟩ := function_char_facts f hf
  obtain ⟨d, s, hds, hd⟩ := to_string_head n
  have hpa := parse_address_run (to_string n) [function_char f] (to_string_ne_nil n)
    (to_string_isDigit n) (by simp [begins_with_digit, hfd])
  rw [decimal_value_to_string, if_neg (by omega)] at hpa
  obtain ⟨n1, n2, n3⟩ := isDigit_not_function d hd
  have hp : parse_command (to_string n ++ [function_char f]) =
      (none, s ++ [function_char f]) := by
    have hskip : skip_separators (to_string n ++ [function_char f]) =
        to_string n ++ [function_char f] := by
      rw [hds]; exact skip_separators_cons_of_not _ _ (isDigit_not_sep d hd)
    have he : eat_blank (d :: (s ++ [function_char f])) =
        (false, d :: (s ++ [function_char f])) :=
      eat_blank_cons_of_not d _ (isDigit_not_blank d hd)
    simp only [parse_command, parse_command_at, hskip, hpa]
    simp only [hds, List.cons_append, he, front_at, List.headD_cons, n1, n2, n3, if_false,
      eat_n]
    simp
  exact parse_script_none _ _ hp

/-- On a script in a NUL-terminated buffer, a command whose address names no line
of the input has no effect: for an
input of `k` lines, a function character `f` of `d`, `=`, `p` and an address `n`
with `n = 0` or `n > k`, the script `<n>f` gives the output of the empty script. -/
theorem execute_address_names_no_line (input : List Char) (n : Nat) (f : Function)
    (hf : f ≠ Function.none) (hn : n = 0 ∨ (lines input).length < n)
    (hin : input.length < SIZE_MOD) :
    execute input (to_string n ++ [function_char f]) = execute input [] := by
  have hl := lines_length_le input
  rw [execute_eq, execute_eq, parse_script_nil, emit_nil]
  by_cases hlt : n < SIZE_MOD
  · have hp := parse_script_single f (some ⟨n⟩) hf (by intro x hx; cases hx; exact hlt)
    simp only [address_text] at hp
    rw [hp, emit_plain _ (lines input) 0 (by omega)]
    intro i l hi1 hi2
    exact cycle_output_not_selected f n i l (by omega)
  · rw [parse_script_overflow n f hf (by omega), emit_nil]

/-! ### Progress of the parser -/

/-- On a NUL-terminated buffer `parse_script` returns at most as many commands as
the script has characters. -/
theorem parse_script_length_le (n : Nat) (s : List Char) (h : s.length ≤ n) :
    (parse_script s).length ≤ s.length := by
  induction n generalizing s with
  | zero =>
    have : s = [] := List.length_eq_zero.mp (by omega)
    simp [this, parse_script_nil]
  | succ n ih =>
    cases hp : parse_command s with
    | mk oc r =>
      cases oc with
      | none => simp [parse_script_none _ _ hp]
      | some cmd =>
        have hl := parse_command_length s r cmd hp
        have := ih r (by omega)
        rw [parse_script_some _ _ _ hp, List.length_cons]
        omega

theorem parse_script_loop_at_nil_d (fuel : Nat) :
    parse_script_loop_at 'd' fuel [] = List.replicate fuel ⟨Function.d, none⟩ := by
  have hp : parse_command_at 'd' [] = (some ⟨Function.d, none⟩, []) := by decide
  induction fuel with
  | zero => rfl
  | succ fuel ih => simp only [parse_script_loop_at, hp, ih, List.replicate_succ]

/-- C20, failing input: the script text `d` held in a buffer whose next byte is `d`
(the first character of the buffer `dd`).  The second call of `parse_command`
succeeds on the empty cursor and leaves it empty, so the loop of `parse_script`
never reaches a failing call: with `fuel` iterations allowed it returns `fuel`
commands, for every `fuel`, from a script text of one character. -/
theorem parse_script_loop_at_never_stops :
    (parse_command_at 'd' []).1 ≠ none ∧ (parse_command_at 'd' []).2 = [] ∧
    ∀ fuel, parse_script_loop_at 'd' fuel ['d'] = List.replicate fuel ⟨Function.d, none⟩ := by
  refine ⟨by decide, by decide, ?_⟩
  intro fuel
  have hp : parse_command_at 'd' ['d'] = (some ⟨Function.d, none⟩, []) := by decide
  cases fuel with
  | zero => rfl
  | succ fuel =>
    simp only [parse_script_loop_at, hp, parse_script_loop_at_nil_d, List.replicate_succ]


/-! ### The end of the script view

The parser reads the byte after the view when the cursor is empty where the
function character is read.  Where that byte is not a function character the
parser behaves as on a NUL-terminated buffer; where it is one, the loop of
`parse_script` never ends once it has reached the end of the view. -/

theorem parse_command_at_terminated (past : Char) (input : List Char)
    (h1 : past ≠ 'd') (h2 : past ≠ '=') (h3 : past ≠ 'p') :
    parse_command_at past input = parse_command input := by
  cases hi : (eat_blank (parse_address (skip_separators input)).2).2 with
  | nil =>
    simp only [parse_command, parse_command_at, hi, front_at, List.headD_nil, h1, h2, h3,
      if_false]
    rw [if_neg (by decide), if_neg (by decide), if_neg (by decide)]
  | cons c t => exact parse_command_at_eq past input (by rw [hi]; simp)

theorem parse_script_at_of_loop (past : Char) (fuel : Nat) (s : List Char)
    (h1 : past ≠ 'd') (h2 : past ≠ '=') (h3 : past ≠ 'p') (hf : s.length < fuel) :
    parse_script_at past fuel s = some (parse_script_loop fuel s) := by
  induction fuel generalizing s with
  | zero => omega
  | succ fuel ih =>
    simp only [parse_script_at, parse_script_loop_succ,
      parse_command_at_terminated past s h1 h2 h3]
    cases hp : parse_command s with
    | mk oc r =>
      cases oc with
      | none => rfl
      | some cmd =>
        have := parse_command_length s r cmd hp
        simp only [ih r (by omega), Option.map_some']

/-- On a view followed by a byte that is not a function character, `parse_script`
returns, within `script.length + 1` iterations, what it returns on a
NUL-terminated buffer. -/
theorem parse_script_at_terminated (past : Char) (fuel : Nat) (s : List Char)
    (h1 : past ≠ 'd') (h2 : past ≠ '=') (h3 : past ≠ 'p') (hf : s.length < fuel) :
    parse_script_at past fuel s = some (parse_script s) := by
  rw [parse_script_at_of_loop past fuel s h1 h2 h3 hf, parse_script,
    parse_script_loop_fuel fuel (s.length + 1) s hf (by omega)]

theorem parse_script_at_nul (s : List Char) :
    parse_script_at (Char.ofNat 0) (s.length + 1) s = some (parse_script s) :=
  parse_script_at_terminated _ _ s (by decide) (by decide) (by decide) (by omega)

/-- On a script view followed by a byte that is not a function character,
`execute` returns what it returns on a NUL-terminated script. -/
theorem execute_at_terminated (past : Char) (fuel : Nat) (input script : List Char)
    (h1 : past ≠ 'd') (h2 : past ≠ '=') (h3 : past ≠ 'p') (hf : script.length < fuel) :
    execute_at past fuel input script = some (execute input script) := by
  simp only [execute_at, parse_script_at_terminated past fuel script h1 h2 h3 hf,
    Option.map_some', execute]

theorem execute_at_nul (input script : List Char) :
    execute_at (Char.ofNat 0) (script.length + 1) input script =
      some (execute input script) :=
  execute_at_terminated _ _ input script (by decide) (by decide) (by decide) (by omega)

theorem parse_command_at_nil_function (f : Function) (hf : f ≠ Function.none) :
    parse_command_at (function_char f) [] = (some ⟨f, none⟩, []) := by
  cases f <;> first | exact absurd rfl hf | decide

/-- On the empty cursor of a view followed by a function character every call of
`parse_command` succeeds and leaves the cursor empty: `parse_script` does not
return. -/
theorem parse_script_at_stuck (f : Function) (hf : f ≠ Function.none) (fuel : Nat) :
    parse_script_at (function_char f) fuel [] = none := by
  induction fuel with
  | zero => rfl
  | succ fuel ih =>
    simp only [parse_script_at, parse_command_at_nil_function f hf, ih, Option.map_none']

theorem parse_script_at_some_none (past : Char) (s r : List Char) (cmd : Command)
    (h : parse_command_at past s = (some cmd, r))
    (hr : ∀ fuel, parse_script_at past fuel r = none) (fuel : Nat) :
    parse_script_at past fuel s = none := by
  cases fuel with
  | zero => rfl
  | succ fuel => simp only [parse_script_at, h, hr fuel, Option.map_none']

theorem parse_script_at_skip (past : Char) (fuel : Nat) (w s : List Char)
    (hw : ∀ c ∈ w, c = ' ' ∨ c = '\t' ∨ c = ';') :
    parse_script_at past fuel (w ++ s) = parse_script_at past fuel s := by
  cases fuel with
  | zero => rfl
  | succ fuel => simp only [parse_script_at, parse_command_at_skip past w s hw]

/-- A script of valid written commands, in a view followed by a function
character: `parse_script` compiles the commands, reaches the end of the view and
never returns. -/
theorem parse_script_at_written (f : Function) (hf : f ≠ Function.none) (sep : List Char)
    (cmds : List Command) (hsep : ∀ c ∈ sep, c = ' ' ∨ c = '\t' ∨ c = ';')
    (hv : ∀ cmd ∈ cmds, cmd.valid = true) (fuel : Nat) :
    parse_script_at (function_char f) fuel (List.intercalate sep (cmds.map written)) =
      none := by
  induction cmds generalizing fuel with
  | nil => exact parse_script_at_stuck f hf fuel
  | cons cmd cmds ih =>
    have hcv := (valid_iff cmd).mp (hv cmd (List.mem_cons_self _ _))
    have ih2 := fun k => ih (fun c hc => hv c (List.mem_cons_of_mem _ hc)) k
    cases cmds with
    | nil =>
      have hp := parse_command_at_some (function_char f) _ _ _
        (parse_command_written [] [] [] cmd.function cmd.address (by simp) (by simp)
          hcv.1 hcv.2)
      have he := intercalate_written_single sep cmd []
      rw [List.append_nil] at he
      rw [he]
      exact parse_script_at_some_none _ _ _ _ hp (parse_script_at_stuck f hf) fuel
    | cons c2 cmds =>
      have hp := parse_command_at_some (function_char f) _ _ _
        (parse_command_written [] []
          (sep ++ (List.intercalate sep ((c2 :: cmds).map written) ++ []))
          cmd.function cmd.address (by simp) (by simp) hcv.1 hcv.2)
      have he := intercalate_written_cons sep cmd c2 cmds []
      rw [List.append_nil] at he
      rw [he]
      refine parse_script_at_some_none _ _ _ _ hp ?_ fuel
      intro k
      rw [parse_script_at_skip _ k sep _ hsep, List.append_nil]
      exact ih2 k

theorem execute_at_none (past : Char) (fuel : Nat) (input script : List Char)
    (h : parse_script_at past fuel script = none) :
    execute_at past fuel input script = none := by
  simp only [execute_at, h, Option.map_none']

/-! ### Scripts in a view followed by a function character

Each theorem evaluates the parser, or `execute`, on a script view that is not
followed by a NUL: the byte after the view is one of `d`, `=`, `p`. -/

/-- C1, failing input: the input `input` with the empty script given as the view
of length 0 over the buffer `d` (`std::string_view("d", 0)`).  The first call of
`parse_command` finds the empty cursor, reads the `d` after the view and returns a
delete command without consuming anything; so does every later call.
`parse_script` does not return, and `execute` never produces `input\n`. -/
theorem execute_at_empty_script_no_return :
    parse_command_at 'd' [] = (some ⟨Function.d, none⟩, []) ∧
    ∀ fuel, execute_at 'd' fuel "input".toList [] = none :=
  ⟨by decide, fun fuel =>
    execute_at_none _ _ _ _ (parse_script_at_stuck Function.d (by decide) fuel)⟩

/-- C2, failing input: the script `2d; 3d` given as the view of length 6 over the
buffer `2d; 3dd`, on an input of four lines.  The two addressed deletes are
compiled, then the parser reads the `d` after the view on the empty cursor, for
ever: `execute` does not return. -/
theorem execute_at_addressed_deletes_no_return :
    ∀ fuel, execute_at 'd' fuel "line1\nline2\nline3\nline4\n".toList "2d; 3d".toList = none :=
  fun fuel => execute_at_none _ _ _ _
    (parse_script_at_some_none 'd' "2d; 3d".toList "; 3d".toList ⟨Function.d, some ⟨2⟩⟩
      (by decide)
      (parse_script_at_some_none 'd' "; 3d".toList [] ⟨Function.d, some ⟨3⟩⟩ (by decide)
        (parse_script_at_stuck Function.d (by decide))) fuel)

/-- C3, failing input: the script `d` given as the view of length 1 over the buffer
`dd` (`std::string_view("dd", 1)`), on the input `input`.  After the delete is
compiled the parser reads the `d` after the view on the empty cursor, for ever:
`execute` does not return the empty text. -/
theorem execute_at_delete_first_no_return :
    ∀ fuel, execute_at 'd' fuel "input".toList ['d'] = none :=
  fun fuel => execute_at_none _ _ _ _
    (parse_script_at_some_none 'd' ['d'] [] ⟨Function.d, none⟩ (by decide)
      (parse_script_at_stuck Function.d (by decide)) fuel)

/-- C4, failing input: the script `=` given as the view of length 1 over the buffer
`==`, on an input of three lines.  After the command is compiled the parser reads
the `=` after the view on the empty cursor, for ever: `execute` does not return. -/
theorem execute_at_equals_no_return :
    ∀ fuel, execute_at '=' fuel "line1\nline2\nline3".toList ['='] = none :=
  fun fuel => execute_at_none _ _ _ _
    (parse_script_at_some_none '=' ['='] [] ⟨Function.equals, none⟩ (by decide)
      (parse_script_at_stuck Function.equals (by decide)) fuel)

/-- C5, failing input: the script `2=` given as the view of length 2 over the
buffer `2==`, on an input of three lines.  After the addressed command is compiled
the parser reads the `=` after the view on the empty cursor, for ever: `execute`
does not return. -/
theorem execute_at_addressed_equals_no_return :
    ∀ fuel, execute_at '=' fuel "line1\nline2\nline3".toList "2=".toList = none :=
  fun fuel => execute_at_none _ _ _ _
    (parse_script_at_some_none '=' "2=".toList [] ⟨Function.equals, some ⟨2⟩⟩ (by decide)
      (parse_script_at_stuck Function.equals (by decide)) fuel)

/-- C6, failing input: the script `1p` given as the view of length 2 over the
buffer `1pp`, on an input of three lines.  After the addressed command is compiled
the parser reads the `p` after the view on the empty cursor, for ever: `execute`
does not return. -/
theorem execute_at_addressed_print_no_return :
    ∀ fuel, execute_at 'p' fuel "line1\nline2\nline3\n".toList "1p".toList = none :=
  fun fuel => execute_at_none _ _ _ _
    (parse_script_at_some_none 'p' "1p".toList [] ⟨Function.p, some ⟨1⟩⟩ (by decide)
      (parse_script_at_stuck Function.p (by decide)) fuel)

/-- C7, failing input: the script `2d` given as the view of length 2 over the
buffer `2dd` (`std::string_view("2dd", 2)`).  After three iterations the loop of
`parse_script` holds the addressed delete and two more deletes, not the one
command, and it never returns. -/
theorem parse_script_at_address_function_no_return :
    parse_script_loop_at 'd' 3 "2d".toList =
      [⟨Function.d, some ⟨2⟩⟩, ⟨Function.d, none⟩, ⟨Function.d, none⟩] ∧
    ∀ fuel, parse_script_at 'd' fuel "2d".toList = none :=
  ⟨by decide, fun fuel =>
    parse_script_at_some_none 'd' "2d".toList [] ⟨Function.d, some ⟨2⟩⟩ (by decide)
      (parse_script_at_stuck Function.d (by decide)) fuel⟩

/-- C9, failing input: the commands `2d` and `=` written and joined with `;`, the
text `2d;=`, given as the view of length 4 over the buffer `2d;=p`.  After four
iterations the loop of `parse_script` holds the two commands and two print
commands more, and it never returns: the text does not compile back to the
sequence it was written from. -/
theorem parse_script_at_written_no_return :
    parse_script_loop_at 'p' 4
        (List.intercalate [';']
          ([(⟨Function.d, some ⟨2⟩⟩ : Command), ⟨Function.equals, none⟩].map written)) =
      [⟨Function.d, some ⟨2⟩⟩, ⟨Function.equals, none⟩, ⟨Function.p, none⟩,
        ⟨Function.p, none⟩] ∧
    ∀ fuel, parse_script_at 'p' fuel
        (List.intercalate [';']
          ([(⟨Function.d, some ⟨2⟩⟩ : Command), ⟨Function.equals, none⟩].map written)) =
      none :=
  ⟨by decide, fun fuel =>
    parse_script_at_written Function.p (by decide) [';']
      [⟨Function.d, some ⟨2⟩⟩, ⟨Function.equals, none⟩] (by decide) (by decide) fuel⟩

/-- C13, failing input: the empty input with the empty script given as the view of
length 0 over the buffer `=` (`std::string_view("=", 0)`).  `execute` compiles
the script before it looks at the input; `parse_script` reads the `=` after the
view on the empty cursor, for ever, and `execute` does not return the empty
text. -/
theorem execute_at_empty_input_no_return :
    parse_command_at '=' [] = (some ⟨Function.equals, none⟩, []) ∧
    ∀ fuel, execute_at '=' fuel [] [] = none :=
  ⟨by decide, fun fuel =>
    execute_at_none _ _ _ _ (parse_script_at_stuck Function.equals (by decide) fuel)⟩

/-- C16, failing input: the input `a\nb` with the script `p` given as the view of
length 1 over the buffer `pp` (`std::string_view("pp", 1)`).  `parse_script`
does not return, so `execute` does not terminate and runs no cycle at all, where
the input has two lines. -/
theorem execute_at_no_termination :
    (lines "a\nb".toList).length = 2 ∧
    ∀ fuel, execute_at 'p' fuel "a\nb".toList ['p'] = none :=
  ⟨by decide, fun fuel => execute_at_none _ _ _ _
    (parse_script_at_some_none 'p' ['p'] [] ⟨Function.p, none⟩ (by decide)
      (parse_script_at_stuck Function.p (by decide)) fuel)⟩

/-- C19, failing input: an input of three lines with the script `0d` given as the
view of length 2 over the buffer `0dd`.  After the delete with address 0 is
compiled the parser reads the `d` after the view on the empty cursor, for ever:
`execute` does not return the output of the empty script on a NUL-terminated
buffer, which is the input with a final newline. -/
theorem execute_at_address_zero_no_return :
    execute_at (Char.ofNat 0) 1 "line1\nline2\nline3".toList [] =
      some "line1\nline2\nline3\n".toList ∧
    ∀ fuel, execute_at 'd' fuel "line1\nline2\nline3".toList "0d".toList = none :=
  ⟨by decide, fun fuel => execute_at_none _ _ _ _
    (parse_script_at_some_none 'd' "0d".toList [] ⟨Function.d, some ⟨0⟩⟩ (by decide)
      (parse_script_at_stuck Function.d (by decide)) fuel)⟩


end sed
